import Mathlib

/-!
Verification development for the ckeditor5-engine core: a shallow embedding of
the `History` class, the `compareArrays` utility, the model tree / operation /
delta layer and the `TreeWalker`, together with theorems settling the frozen
claims about the natural-language specification.

Where the deciding code is present in the repository (`History`,
`compareArrays`) the definitions below are direct translations of that source.
Where only tests or callers of a component are present (operations, deltas,
`Batch.split`, `TreeWalker`), the component is modelled from the specification;
those definitions carry a `Modelled from the spec:` doc comment.
-/

namespace CKE

/-! ### `compareArrays` (translated from `utils.compareArrays`) -/

/-- Result of `compareArrays`: the string flags `'SAME'`, `'PREFIX'`,
`'EXTENSION'` or the first index at which the arrays differ. -/
inductive ArrayRelation where
  | same : ArrayRelation
  | pre : ArrayRelation
  | ext : ArrayRelation
  | differ (i : Nat) : ArrayRelation
  deriving DecidableEq, Repr

/-- Translation of `utils.compareArrays`: scan for the first index at which the
arrays differ; if none, classify by length. -/
def compareArrays : List Nat → List Nat → ArrayRelation
  | [], [] => .same
  | [], _ :: _ => .pre
  | _ :: _, [] => .ext
  | a :: as, b :: bs =>
    if a ≠ b then .differ 0
    else
      match compareArrays as bs with
      | .differ i => .differ (i + 1)
      | r => r

/-! ### History (translated from `engine.model.History`) -/

/-- A delta as History sees it: only its identity, base version and number of
operations matter to the history bookkeeping.  The `id` field models JavaScript
object identity (`!==`): distinct delta instances carry distinct ids. -/
structure HDelta where
  id : Nat
  baseVersion : Nat
  numOps : Nat
  deriving DecidableEq, Repr

/-- An operation as History sees it: only its owning delta matters
(`operation.delta`, which may be absent). -/
structure HOp where
  delta : Option HDelta
  deriving DecidableEq, Repr

/-- `Map.set` on the association list modelling `History._historyPoints`:
overwrite the value when the key is present, append otherwise. -/
def mapSet : List (Nat × Nat) → Nat → Nat → List (Nat × Nat)
  | [], k, v => [(k, v)]
  | (k', v') :: rest, k, v =>
    if k' = k then (k, v) :: rest else (k', v') :: mapSet rest k v

/-- `Map.get` on the association list modelling `History._historyPoints`. -/
def mapGet : List (Nat × Nat) → Nat → Option Nat
  | [], _ => none
  | (k', v') :: rest, k => if k' = k then some v' else mapGet rest k

/-- State of a `History` instance: the `_deltas` array and the
`_historyPoints` map from a delta's base version to its index in `_deltas`. -/
structure History where
  deltas : List HDelta
  points : List (Nat × Nat)
  deriving DecidableEq, Repr

/-- The empty history created by the constructor. -/
def History.empty : History := { deltas := [], points := [] }

/-- Errors surfaced by the history methods: the `history-wrong-version`
`CKEditorError` and the implicit `TypeError` raised when `_nextHistoryPoint`
reads `baseVersion` of `this._deltas[ this._deltas.length - 1 ]` while
`_deltas` is empty (`undefined.baseVersion`). -/
inductive HErr where
  | wrongVersion : HErr
  | typeError : HErr
  deriving DecidableEq, Repr

/-- Translation of the `History._nextHistoryPoint` getter.  The source reads
the last element of `_deltas` unconditionally; on an empty history that access
yields `undefined` and the subsequent `.baseVersion` throws, modelled here by
`none`. -/
def History.nextHistoryPoint (h : History) : Option Nat :=
  (h.deltas.getLast?).map fun lastDelta => lastDelta.baseVersion + lastDelta.numOps

/-- Translation of `History.addOperation`: if the operation belongs to a delta
and that delta is not already the last history entry, append the delta and
record its base version in `_historyPoints`. -/
def History.addOperation (h : History) (op : HOp) : History :=
  match op.delta with
  | none => h
  | some delta =>
    if h.deltas.getLast? = some delta then h
    else
      { deltas := h.deltas ++ [delta],
        points := mapSet h.points delta.baseVersion h.deltas.length }

/-- Adding a sequence of operations one by one, first to last. -/
def History.addOperations (h : History) (ops : List HOp) : History :=
  ops.foldl History.addOperation h

/-- Translation of `History.getDeltas`: look `from` up in `_historyPoints`;
if absent throw `history-wrong-version`, otherwise yield every delta from that
index to the end of `_deltas`. -/
def History.getDeltas (h : History) (from_ : Nat) : Except HErr (List HDelta) :=
  match mapGet h.points from_ with
  | none => .error .wrongVersion
  | some i => .ok (h.deltas.drop i)

/-- Translation of `History._transform`: delegate to the external delta
`transform` with `isStrong` set to `false`.  The external transformation
(`delta/transform.js`) is not part of the sources, so it is a parameter `t`. -/
def History.hTransform (t : HDelta → HDelta → Bool → List HDelta)
    (toTransform transformBy : HDelta) : List HDelta :=
  t toTransform transformBy false

/-- The inner `for ( let deltaToTransform of transformed )` loop of
`getTransformedDelta`: concatenate the transforms of each working delta
against the history delta. -/
def History.innerLoop (t : HDelta → HDelta → Bool → List HDelta)
    (transformed : List HDelta) (historyDelta : HDelta) : List HDelta :=
  match transformed with
  | [] => []
  | d :: rest => History.hTransform t d historyDelta ++ History.innerLoop t rest historyDelta

/-- The outer `for ( let historyDelta of this.getDeltas( ... ) )` loop of
`getTransformedDelta`: replace the working set by the result of the inner loop
for each history delta in order. -/
def History.outerLoop (t : HDelta → HDelta → Bool → List HDelta)
    (transformed : List HDelta) (historyDeltas : List HDelta) : List HDelta :=
  match historyDeltas with
  | [] => transformed
  | hd :: rest => History.outerLoop t (History.innerLoop t transformed hd) rest

/-- Translation of `History.getTransformedDelta`: compare the delta's base
version with `_nextHistoryPoint` (which faults on an empty history), return
`[ delta ]` on the fast path, otherwise fold the transformation loops over
`getDeltas( delta.baseVersion )`. -/
def History.getTransformedDelta (t : HDelta → HDelta → Bool → List HDelta)
    (h : History) (delta : HDelta) : Except HErr (List HDelta) :=
  match h.nextHistoryPoint with
  | none => .error .typeError
  | some p =>
    if delta.baseVersion = p then .ok [delta]
    else
      match h.getDeltas delta.baseVersion with
      | .error e => .error e
      | .ok ds => .ok (History.outerLoop t [delta] ds)

/-- The claim's description of the slow path, written with `foldl` and
`flatMap`: iterate every recorded delta at or after `delta.baseVersion`,
replacing the working set by the concatenation of the transforms of each
working delta against the historical delta. -/
def History.specSlowPath (t : HDelta → HDelta → Bool → List HDelta)
    (h : History) (delta : HDelta) : Except HErr (List HDelta) :=
  (h.getDeltas delta.baseVersion).map fun ds =>
    ds.foldl (fun ws hd => ws.flatMap fun w => History.hTransform t w hd) [delta]

/-- The validity invariant tying `_historyPoints` to `_deltas`: every map entry
points at an in-range index holding a delta with that base version, and every
recorded delta's base version maps back to its index. -/
def History.inv (h : History) : Bool :=
  h.points.all (fun p =>
    match h.deltas.get? p.2 with
    | some d => d.baseVersion == p.1
    | none => false) &&
  (List.range h.deltas.length).all (fun i =>
    match h.deltas.get? i with
    | some d => mapGet h.points d.baseVersion == some i
    | none => false)

/-! ### Model tree and operations

Modelled from the spec: the operation classes (`InsertOperation`,
`RemoveOperation`, `ReinsertOperation`, `MoveOperation`, `RenameOperation`,
`AttributeOperation`, `MarkerOperation`, `NoOperation`) and the tree-model
`Document` are not part of the sources (only their tests are), so the data
model of section 3 and the operation table of section 4.2 of the spec are
modelled here. -/

/-- Attributes of a node: unique keys.  Kept sorted by key so that equality of
attribute sets is equality of the lists (a JavaScript `Map` compares by
content, not entry order). -/
abbrev Attrs := List (String × String)

/-- Modelled from the spec: the two node kinds of the tree — an `Element` with
a name, attributes and an ordered child sequence, and a single-character text
node with its attribute set (text runs in this model are sequences of
character nodes, as in the `InsertOperation` tests). -/
inductive Node where
  | char (c : Char) (attrs : Attrs) : Node
  | element (name : String) (attrs : Attrs) (children : List Node) : Node

/-- Insert `ns` into `l` at offset `i`; fails when `i` exceeds the length. -/
def listInsertAt (l : List Node) (i : Nat) (ns : List Node) : Option (List Node) :=
  if i ≤ l.length then some (l.take i ++ ns ++ l.drop i) else none

/-- Detach `n` elements of `l` starting at offset `i`; returns the remaining
list and the detached elements; fails when the range exceeds the length. -/
def listExtract (l : List Node) (i n : Nat) : Option (List Node × List Node) :=
  if i + n ≤ l.length then some (l.take i ++ l.drop (i + n), (l.drop i).take n) else none

/-- Insert a node sequence at the position described by `path` (offsets from
this node down to an insertion point between siblings). -/
def insertAt : Node → List Nat → List Node → Option Node
  | .element nm a cs, [o], ns => (listInsertAt cs o ns).map (Node.element nm a)
  | .element nm a cs, i :: j :: rest, ns =>
    match cs.get? i with
    | some c => (insertAt c (j :: rest) ns).map fun c' => Node.element nm a (cs.set i c')
    | none => none
  | _, _, _ => none

/-- Detach `n` sibling nodes starting at the position described by `path`. -/
def detachAt : Node → List Nat → Nat → Option (Node × List Node)
  | .element nm a cs, [o], n => (listExtract cs o n).map fun p => (Node.element nm a p.1, p.2)
  | .element nm a cs, i :: j :: rest, n =>
    match cs.get? i with
    | some c => (detachAt c (j :: rest) n).map fun p => (Node.element nm a (cs.set i p.1), p.2)
    | none => none
  | _, _, _ => none

/-- Apply a partial update `f` to the node addressed by `path` (child indices
from this node). -/
def modifyNode : Node → List Nat → (Node → Option Node) → Option Node
  | x, [], f => f x
  | .element nm a cs, i :: rest, f =>
    match cs.get? i with
    | some c => (modifyNode c rest f).map fun c' => Node.element nm a (cs.set i c')
    | none => none
  | _, _ :: _, _ => none

/-- The node addressed by `path` (child indices from this node). -/
def getNode : Node → List Nat → Option Node
  | x, [] => some x
  | .element _ _ cs, i :: rest =>
    match cs.get? i with
    | some c => getNode c rest
    | none => none
  | _, _ :: _ => none

/-- Whether the attribute keys are strictly increasing (unique, sorted). -/
def sortedKeys : Attrs → Bool
  | [] => true
  | [_] => true
  | x :: y :: t => x.1 < y.1 && sortedKeys (y :: t)

/-- First value recorded for key `k`. -/
def attrsGet : Attrs → String → Option String
  | [], _ => none
  | (k', v') :: rest, k => if k' = k then some v' else attrsGet rest k

/-- Remove every entry with key `k`. -/
def eraseKeyA (a : Attrs) (k : String) : Attrs :=
  a.filter fun p => p.1 ≠ k

/-- Insert `(k, v)` in key order. -/
def insSorted : Attrs → String → String → Attrs
  | [], k, v => [(k, v)]
  | (k', v') :: t, k, v =>
    if k < k' then (k, v) :: (k', v') :: t else (k', v') :: insSorted t k v

/-- Set (`some`) or unset (`none`) the value of key `k`. -/
def setAttr (a : Attrs) (k : String) : Option String → Attrs
  | none => eraseKeyA a k
  | some v => insSorted (eraseKeyA a k) k v

/-- Modelled from the spec: the operation variants of section 4.2.  Positions
are root-relative offset paths.  `remove` detaches into the internal holding
area (`graveyard`) at `gyOffset`; `reinsert` moves nodes back out of it.  A
`move` target position is interpreted in the tree after the source nodes have
been detached. -/
inductive OpKind where
  | ins (pos : List Nat) (nodes : List Node) : OpKind
  | rem (src : List Nat) (howMany : Nat) (gyOffset : Nat) : OpKind
  | reins (gyOffset : Nat) (howMany : Nat) (dst : List Nat) : OpKind
  | mov (src : List Nat) (howMany : Nat) (dst : List Nat) : OpKind
  | ren (pos : List Nat) (oldName newName : String) : OpKind
  | attr (pos : List Nat) (key : String) (oldVal newVal : Option String) : OpKind
  | marker (name : String) (oldRange newRange : Option (List Nat × List Nat)) : OpKind
  | noop : OpKind

/-- Modelled from the spec: an Operation is a variant plus the document
version it is valid against. -/
structure MOp where
  kind : OpKind
  baseVersion : Nat

/-- Modelled from the spec: the Document owns the tree of one root, the
holding area for removed nodes, the marker table and the version counter. -/
structure MDoc where
  root : Node
  graveyard : List Node
  markers : List (String × (List Nat × List Nat))
  version : Nat

/-- First range recorded for marker `name`. -/
def markersGet : List (String × (List Nat × List Nat)) → String → Option (List Nat × List Nat)
  | [], _ => none
  | (k', r) :: rest, k => if k' = k then some r else markersGet rest k

/-- Set (`some`) or clear (`none`) the range of marker `name`. -/
def markersSet (ms : List (String × (List Nat × List Nat))) (k : String) :
    Option (List Nat × List Nat) → List (String × (List Nat × List Nat))
  | none => ms.filter fun p => p.1 ≠ k
  | some r => (k, r) :: ms.filter fun p => p.1 ≠ k

/-- The tree rewrite of a `rename`: the node must be an element carrying the
expected old name. -/
def renameFn (oldName newName : String) : Node → Option Node
  | .element nm a cs => if nm = oldName then some (.element newName a cs) else none
  | .char _ _ => none

/-- The tree rewrite of an `attribute` operation: the node's attribute map
must be well-formed (sorted unique keys — always true of a JavaScript `Map`)
and carry the expected old value for `key`. -/
def attrFn (k : String) (oldVal newVal : Option String) : Node → Option Node
  | .char c a =>
    if sortedKeys a ∧ attrsGet a k = oldVal then some (.char c (setAttr a k newVal)) else none
  | .element nm a cs =>
    if sortedKeys a ∧ attrsGet a k = oldVal then some (.element nm (setAttr a k newVal) cs)
    else none

/-- Modelled from the spec: the tree/state mutation of each operation variant
(version handled by `applyOperation`). -/
def applyKind (doc : MDoc) : OpKind → Option MDoc
  | .ins pos nodes => (insertAt doc.root pos nodes).map fun r => { doc with root := r }
  | .rem src howMany gyOffset =>
    match detachAt doc.root src howMany with
    | some (r, ns) =>
      (listInsertAt doc.graveyard gyOffset ns).map fun gy =>
        { doc with root := r, graveyard := gy }
    | none => none
  | .reins gyOffset howMany dst =>
    match listExtract doc.graveyard gyOffset howMany with
    | some (gy, ns) =>
      (insertAt doc.root dst ns).map fun r => { doc with root := r, graveyard := gy }
    | none => none
  | .mov src howMany dst =>
    match detachAt doc.root src howMany with
    | some (r1, ns) => (insertAt r1 dst ns).map fun r2 => { doc with root := r2 }
    | none => none
  | .ren pos oldName newName =>
    (modifyNode doc.root pos (renameFn oldName newName)).map fun r => { doc with root := r }
  | .attr pos key oldVal newVal =>
    (modifyNode doc.root pos (attrFn key oldVal newVal)).map fun r => { doc with root := r }
  | .marker name oldRange newRange =>
    if markersGet doc.markers name = oldRange then
      some { doc with markers := markersSet doc.markers name newRange }
    else none
  | .noop => some doc

/-- Modelled from the spec: `Document.applyOperation` fails when
`op.baseVersion` differs from the document version, otherwise executes the
mutation and increments the version by one. -/
def applyOperation (doc : MDoc) (op : MOp) : Option MDoc :=
  if op.baseVersion = doc.version then
    (applyKind doc op.kind).map fun d => { d with version := doc.version + 1 }
  else none

/-- Modelled from the spec: the per-variant reversal table of section 4.2. -/
def reverseKind : OpKind → OpKind
  | .ins pos nodes => .rem pos nodes.length 0
  | .rem src howMany gyOffset => .reins gyOffset howMany src
  | .reins gyOffset howMany dst => .rem dst howMany gyOffset
  | .mov src howMany dst => .mov dst howMany src
  | .ren pos oldName newName => .ren pos newName oldName
  | .attr pos key oldVal newVal => .attr pos key newVal oldVal
  | .marker name oldRange newRange => .marker name newRange oldRange
  | .noop => .noop

/-- Modelled from the spec: `Operation.getReversed` — the inverse variant,
valid right after this operation (base version one higher). -/
def getReversed (op : MOp) : MOp :=
  { kind := reverseKind op.kind, baseVersion := op.baseVersion + 1 }

/-! ### `Batch.split` (modelled from the spec) -/

/-- Failure conditions of `Batch.split`. -/
inductive SplitErr where
  | splitRoot : SplitErr
  | invalid : SplitErr
  deriving DecidableEq, Repr

/-- Modelled from the spec: `Batch.split( position )` — a position whose path
has length ≤ 1 addresses a root node and is rejected with `batch-split-root`;
otherwise a copy of the split element (same name and attributes, no children)
is inserted after it and the content after the split point is moved into the
copy at offset 0. -/
def batchSplit (root : Node) (p : List Nat) : Except SplitErr Node :=
  if p.length ≤ 1 then .error .splitRoot
  else
    let parentPath := p.dropLast
    let off := p.getLast!
    let grand := parentPath.dropLast
    let pidx := parentPath.getLast!
    match getNode root parentPath with
    | some (.element nm a cs) =>
      if off ≤ cs.length then
        match insertAt root (grand ++ [pidx + 1]) [.element nm a []] with
        | some t1 =>
          match detachAt t1 (parentPath ++ [off]) (cs.length - off) with
          | some (t2, moved) =>
            match insertAt t2 (grand ++ [pidx + 1, 0]) moved with
            | some t3 => .ok t3
            | none => .error .invalid
          | none => .error .invalid
        | none => .error .invalid
      else .error .invalid
    | _ => .error .invalid

/-! ### Deltas (modelled from the spec) -/

/-- The delta kinds needed by the reversal-mapping claims. -/
inductive DKind where
  | split : DKind
  | merge : DKind
  deriving DecidableEq, Repr

/-- Modelled from the spec: a Delta is an ordered list of operations of one
delta kind. -/
structure MDelta where
  kind : DKind
  operations : List MOp

/-- Modelled from the spec: a `SplitDelta`'s `position` is derived from its
move operation (`operations[ 1 ]`), `null` when the delta has no operations. -/
def deltaPosition (d : MDelta) : Option (List Nat) :=
  match d.operations.get? 1 with
  | some op =>
    match op.kind with
    | .mov src _ _ => some src
    | _ => none
  | none => none

/-- The delta-kind reversal table: Split and Merge are each other's
designated inverse kind. -/
def reverseDKind : DKind → DKind
  | .split => .merge
  | .merge => .split

/-- Modelled from the spec: `Delta.getReversed` builds a delta of the inverse
kind from the reversed operations in reverse order. -/
def getReversedDelta (d : MDelta) : MDelta :=
  { kind := reverseDKind d.kind, operations := (d.operations.map getReversed).reverse }

/-! ### TreeWalker (modelled from the spec)

Modelled from the spec: the `TreeWalker` implementation is not part of the
sources (only its tests are).  Traversal is over the child list of a root
element between two positions given as offset paths; `fuel` bounds the
nesting depth the traversal may descend through (any fuel at least the tree
depth yields the full traversal). -/

/-- The traversal events: `ELEMENT_START`, `ELEMENT_END`, a merged `TEXT` run
with its uniform attribute set, and a `CHARACTER`. -/
inductive WEvent where
  | elemStart (e : Node) : WEvent
  | elemEnd (e : Node) : WEvent
  | txt (cs : List Char) (a : Attrs) : WEvent
  | chr (c : Char) (a : Attrs) : WEvent

/-- The sibling nodes strictly between offsets `i` and `j`. -/
def slice (cs : List Node) (i j : Nat) : List Node :=
  (cs.drop i).take (j - i)

/-- Forward raw traversal of a sibling list: element start, content, element
end for each element (start only when `shallow`), one `chr` event per
character node.  `TEXT` merging and `ignoreElementEnd` are applied
afterwards. -/
def rawF : Nat → Bool → List Node → Option (List WEvent)
  | _, _, [] => some []
  | f, sh, .char c a :: rest => (rawF f sh rest).map (WEvent.chr c a :: ·)
  | f, sh, .element nm a cs :: rest =>
    if sh then (rawF f sh rest).map (WEvent.elemStart (.element nm a cs) :: ·)
    else
      match f with
      | 0 => none
      | f' + 1 =>
        match rawF f' sh cs, rawF (f' + 1) sh rest with
        | some inner, some tail =>
          some (WEvent.elemStart (.element nm a cs) ::
            (inner ++ WEvent.elemEnd (.element nm a cs) :: tail))
        | _, _ => none
  termination_by f _ cs => (f, cs.length)

/-- Backward raw traversal of a sibling list: rightmost sibling first, each
element contributing its end event, its content backward, then its start
event. -/
def rawB : Nat → Bool → List Node → Option (List WEvent)
  | _, _, [] => some []
  | f, sh, .char c a :: rest => (rawB f sh rest).map (· ++ [WEvent.chr c a])
  | f, sh, .element nm a cs :: rest =>
    if sh then (rawB f sh rest).map (· ++ [WEvent.elemStart (.element nm a cs)])
    else
      match f with
      | 0 => none
      | f' + 1 =>
        match rawB f' sh cs, rawB (f' + 1) sh rest with
        | some inner, some tail =>
          some (tail ++ (WEvent.elemEnd (.element nm a cs) ::
            (inner ++ [WEvent.elemStart (.element nm a cs)])))
        | _, _ => none
  termination_by f _ cs => (f, cs.length)

/-- Forward bounded raw traversal of a sibling list between position paths
`a` and `b` (a path `[ o ]` is a boundary at this level, a longer path
descends into the child at its head).  `none` on malformed bounds. -/
def browF : Nat → Bool → List Node → List Nat → List Nat → Option (List WEvent)
  | f, sh, cs, [sa], [sb] =>
    if sa ≤ sb ∧ sb ≤ cs.length then rawF f sh (slice cs sa sb) else none
  | f, sh, cs, [sa], sb :: b1 :: bt =>
    if sh then none
    else
      match f, cs.get? sb with
      | f' + 1, some (.element nm at_ ccs) =>
        if sa ≤ sb then
          match rawF (f' + 1) sh (slice cs sa sb), browF f' sh ccs [0] (b1 :: bt) with
          | some pre, some inner =>
            some (pre ++ WEvent.elemStart (.element nm at_ ccs) :: inner)
          | _, _ => none
        else none
      | _, _ => none
  | f, sh, cs, sa :: a1 :: at_, [sb] =>
    if sh then none
    else
      match f, cs.get? sa with
      | f' + 1, some (.element nm ats ccs) =>
        if sa < sb ∧ sb ≤ cs.length then
          match browF f' sh ccs (a1 :: at_) [ccs.length], rawF (f' + 1) sh (slice cs (sa + 1) sb) with
          | some inner, some post =>
            some (inner ++ WEvent.elemEnd (.element nm ats ccs) :: post)
          | _, _ => none
        else none
      | _, _ => none
  | f, sh, cs, sa :: a1 :: at_, sb :: b1 :: bt =>
    if sh then none
    else
      match f with
      | 0 => none
      | f' + 1 =>
        if sa = sb then
          match cs.get? sa with
          | some (.element _ _ ccs) => browF f' sh ccs (a1 :: at_) (b1 :: bt)
          | _ => none
        else if sa < sb then
          match cs.get? sa, cs.get? sb with
          | some (.element nma atsa ccsa), some (.element nmb atsb ccsb) =>
            match browF f' sh ccsa (a1 :: at_) [ccsa.length],
                rawF (f' + 1) sh (slice cs (sa + 1) sb),
                browF f' sh ccsb [0] (b1 :: bt) with
            | some innerA, some mid, some innerB =>
              some (innerA ++ WEvent.elemEnd (.element nma atsa ccsa) ::
                (mid ++ WEvent.elemStart (.element nmb atsb ccsb) :: innerB))
            | _, _, _ => none
          | _, _ => none
        else none
  | _, _, _, _, _ => none
  termination_by f _ _ _ _ => f

/-- Backward bounded raw traversal between the same bounds: walks from `b`
down to `a`, mirroring `browF` case by case. -/
def browB : Nat → Bool → List Node → List Nat → List Nat → Option (List WEvent)
  | f, sh, cs, [sa], [sb] =>
    if sa ≤ sb ∧ sb ≤ cs.length then rawB f sh (slice cs sa sb) else none
  | f, sh, cs, [sa], sb :: b1 :: bt =>
    if sh then none
    else
      match f, cs.get? sb with
      | f' + 1, some (.element nm at_ ccs) =>
        if sa ≤ sb then
          match rawB (f' + 1) sh (slice cs sa sb), browB f' sh ccs [0] (b1 :: bt) with
          | some pre, some inner =>
            some (inner ++ WEvent.elemStart (.element nm at_ ccs) :: pre)
          | _, _ => none
        else none
      | _, _ => none
  | f, sh, cs, sa :: a1 :: at_, [sb] =>
    if sh then none
    else
      match f, cs.get? sa with
      | f' + 1, some (.element nm ats ccs) =>
        if sa < sb ∧ sb ≤ cs.length then
          match browB f' sh ccs (a1 :: at_) [ccs.length], rawB (f' + 1) sh (slice cs (sa + 1) sb) with
          | some inner, some post =>
            some (post ++ WEvent.elemEnd (.element nm ats ccs) :: inner)
          | _, _ => none
        else none
      | _, _ => none
  | f, sh, cs, sa :: a1 :: at_, sb :: b1 :: bt =>
    if sh then none
    else
      match f with
      | 0 => none
      | f' + 1 =>
        if sa = sb then
          match cs.get? sa with
          | some (.element _ _ ccs) => browB f' sh ccs (a1 :: at_) (b1 :: bt)
          | _ => none
        else if sa < sb then
          match cs.get? sa, cs.get? sb with
          | some (.element nma atsa ccsa), some (.element nmb atsb ccsb) =>
            match browB f' sh ccsa (a1 :: at_) [ccsa.length],
                rawB (f' + 1) sh (slice cs (sa + 1) sb),
                browB f' sh ccsb [0] (b1 :: bt) with
            | some innerA, some mid, some innerB =>
              some (innerB ++ WEvent.elemStart (.element nmb atsb ccsb) ::
                (mid ++ WEvent.elemEnd (.element nma atsa ccsa) :: innerA))
            | _, _, _ => none
          | _, _ => none
        else none
  | _, _, _, _, _ => none
  termination_by f _ _ _ _ => f

/-- Whether an event is a character event with exactly these attributes. -/
def isChrA (a : Attrs) : WEvent → Bool
  | .chr _ a' => a' = a
  | _ => false

/-- The characters of the character events of a list. -/
def chrChars : List WEvent → List Char
  | [] => []
  | .chr c _ :: rest => c :: chrChars rest
  | _ :: rest => chrChars rest

/-- Merge maximal runs of adjacent character events with equal attribute sets
into `TEXT` events, scanning forward. -/
def mergeF : List WEvent → List WEvent
  | [] => []
  | .chr c a :: rest =>
    .txt (c :: chrChars (rest.takeWhile (isChrA a))) a :: mergeF (rest.dropWhile (isChrA a))
  | e :: rest => e :: mergeF rest
  termination_by l => l.length
  decreasing_by
    all_goals simp_wf
    all_goals exact Nat.lt_succ_of_le ((List.dropWhile_suffix _).length_le)

/-- Merge runs scanning a backward event stream: the events arrive
right-to-left, so a run's characters are collected right-to-left and the
`TEXT` payload is their reverse. -/
def mergeB : List WEvent → List WEvent
  | [] => []
  | .chr c a :: rest =>
    .txt (c :: chrChars (rest.takeWhile (isChrA a))).reverse a :: mergeB (rest.dropWhile (isChrA a))
  | e :: rest => e :: mergeB rest
  termination_by l => l.length
  decreasing_by
    all_goals simp_wf
    all_goals exact Nat.lt_succ_of_le ((List.dropWhile_suffix _).length_le)

/-- Whether an event is an `ELEMENT_END` event. -/
def isEnd : WEvent → Bool
  | .elemEnd _ => true
  | _ => false

/-- TreeWalker configuration flags. -/
structure WFlags where
  singleCharacters : Bool
  shallow : Bool
  ignoreElementEnd : Bool

/-- The post-processing of a forward raw stream: merge text runs unless
`singleCharacters`, drop `ELEMENT_END` events when `ignoreElementEnd`. -/
def postF (fl : WFlags) (l : List WEvent) : List WEvent :=
  let m := if fl.singleCharacters then l else mergeF l
  if fl.ignoreElementEnd then m.filter (fun e => ¬ isEnd e) else m

/-- The post-processing of a backward raw stream. -/
def postB (fl : WFlags) (l : List WEvent) : List WEvent :=
  let m := if fl.singleCharacters then l else mergeB l
  if fl.ignoreElementEnd then m.filter (fun e => ¬ isEnd e) else m

/-- Modelled from the spec: the full forward TreeWalker traversal of the
content of a sibling list between positions `a` and `b`. -/
def treeWalkForward (f : Nat) (fl : WFlags) (cs : List Node) (a b : List Nat) :
    Option (List WEvent) :=
  (browF f fl.shallow cs a b).map (postF fl)

/-- Modelled from the spec: the full backward TreeWalker traversal over the
same bounds. -/
def treeWalkBackward (f : Nat) (fl : WFlags) (cs : List Node) (a b : List Nat) :
    Option (List WEvent) :=
  (browB f fl.shallow cs a b).map (postB fl)

/-! ## Theorems -/

/-! ### List helper lemmas -/

theorem get?_set_self {l : List Node} {i : Nat} {c x : Node} (h : l.get? i = some c) :
    (l.set i x).get? i = some x := by
  induction l generalizing i with
  | nil => simp at h
  | cons y ys ih =>
    cases i with
    | zero => rfl
    | succ j => simpa using ih (by simpa using h)

theorem set_of_get? {l : List Node} {i : Nat} {c : Node} (h : l.get? i = some c) :
    l.set i c = l := by
  induction l generalizing i with
  | nil => simp at h
  | cons y ys ih =>
    cases i with
    | zero => simp at h; simp [h]
    | succ j => simpa using ih (by simpa using h)

theorem set_set' {l : List Node} {i : Nat} {x y : Node} :
    (l.set i x).set i y = l.set i y := by
  induction l generalizing i with
  | nil => rfl
  | cons z zs ih =>
    cases i with
    | zero => rfl
    | succ j => simp [ih]

/-! ### Insert / extract inverse lemmas -/

theorem take_len_app {α : Type} (l₁ l₂ : List α) {n : Nat} (h : n = l₁.length) :
    (l₁ ++ l₂).take n = l₁ := by
  subst h; exact List.take_left _ _

theorem drop_len_app {α : Type} (l₁ l₂ : List α) {n : Nat} (h : n = l₁.length) :
    (l₁ ++ l₂).drop n = l₂ := by
  subst h; exact List.drop_left _ _

theorem listExtract_listInsertAt {l l' : List Node} {i : Nat} {ns : List Node}
    (h : listInsertAt l i ns = some l') :
    listExtract l' i ns.length = some (l, ns) := by
  unfold listInsertAt at h
  split at h
  case isTrue hle =>
    cases h
    have htl : i = (l.take i).length := by simp [Nat.min_eq_left hle]
    unfold listExtract
    have h1 : (l.take i ++ (ns ++ l.drop i)).take i = l.take i := take_len_app _ _ htl
    have h2 : (l.take i ++ (ns ++ l.drop i)).drop i = ns ++ l.drop i := drop_len_app _ _ htl
    have h3 : ((l.take i ++ ns) ++ l.drop i).drop (i + ns.length) = l.drop i :=
      drop_len_app _ _ (by simp [← htl])
    split
    case isTrue =>
      rw [List.append_assoc] at h3 ⊢
      rw [h1, h2, h3, List.take_append_drop, take_len_app _ _ rfl]
    case isFalse hcon =>
      exact absurd (by simp; omega) hcon
  case isFalse => exact absurd h (by simp)

theorem listInsertAt_listExtract {l l' ns : List Node} {i n : Nat}
    (h : listExtract l i n = some (l', ns)) :
    listInsertAt l' i ns = some l ∧ ns.length = n := by
  unfold listExtract at h
  split at h
  case isTrue hle =>
    injection h with h
    injection h with h1 h2
    subst h1; subst h2
    have hlen : ((l.drop i).take n).length = n := by simp; omega
    have htl : i = (l.take i).length := by
      rw [List.length_take, Nat.min_eq_left (by omega)]
    constructor
    · unfold listInsertAt
      split
      case isTrue =>
        congr 1
        have h1 : (l.take i ++ l.drop (i + n)).take i = l.take i := take_len_app _ _ htl
        have h2 : (l.take i ++ l.drop (i + n)).drop i = l.drop (i + n) := drop_len_app _ _ htl
        rw [h1, h2]
        have hdd : l.drop (i + n) = ((l.drop i).drop n) := by
          rw [List.drop_drop]
        rw [hdd, List.append_assoc, List.take_append_drop, List.take_append_drop]
      case isFalse hcon =>
        refine absurd ?_ hcon
        simp only [List.length_append]
        omega
    · exact hlen
  case isFalse => exact absurd h (by simp)

/-- Detaching what was just inserted at the same position undoes the
insertion. -/
theorem detachAt_insertAt {p : List Nat} :
    ∀ {t t' : Node} {ns : List Node}, insertAt t p ns = some t' →
      detachAt t' p ns.length = some (t, ns) := by
  induction p with
  | nil => intro t t' ns h; cases t <;> simp [insertAt] at h
  | cons i rest ih =>
    intro t t' ns h
    cases rest with
    | nil =>
      cases t with
      | char c a => simp [insertAt] at h
      | element nm at_ cs =>
        simp only [insertAt, Option.map_eq_some'] at h
        obtain ⟨cs', hcs', rfl⟩ := h
        simp only [detachAt, listExtract_listInsertAt hcs', Option.map_some']
    | cons j rest' =>
      cases t with
      | char c a => simp [insertAt] at h
      | element nm at_ cs =>
        simp only [insertAt] at h
        cases hc : cs.get? i with
        | none => rw [hc] at h; exact absurd h (by simp)
        | some c =>
          rw [hc] at h
          simp only [Option.map_eq_some'] at h
          obtain ⟨c', hc', rfl⟩ := h
          simp only [detachAt, get?_set_self hc, ih hc', Option.map_some', set_set',
            set_of_get? hc]

/-- Re-inserting what was just detached at the same position undoes the
detach, and the detached sequence has the requested length. -/
theorem insertAt_detachAt {p : List Nat} :
    ∀ {t t' : Node} {ns : List Node} {n : Nat}, detachAt t p n = some (t', ns) →
      insertAt t' p ns = some t ∧ ns.length = n := by
  induction p with
  | nil => intro t t' ns n h; cases t <;> simp [detachAt] at h
  | cons i rest ih =>
    intro t t' ns n h
    cases rest with
    | nil =>
      cases t with
      | char c a => simp [detachAt] at h
      | element nm at_ cs =>
        simp only [detachAt, Option.map_eq_some'] at h
        obtain ⟨⟨cs', ms⟩, hcs', hh⟩ := h
        cases hh
        obtain ⟨hins, hlen⟩ := listInsertAt_listExtract hcs'
        exact ⟨by simp [insertAt, hins], hlen⟩
    | cons j rest' =>
      cases t with
      | char c a => simp [detachAt] at h
      | element nm at_ cs =>
        simp only [detachAt] at h
        cases hc : cs.get? i with
        | none => rw [hc] at h; exact absurd h (by simp)
        | some c =>
          rw [hc] at h
          simp only [Option.map_eq_some'] at h
          obtain ⟨⟨c', ms⟩, hc', hh⟩ := h
          cases hh
          obtain ⟨hins, hlen⟩ := ih hc'
          refine ⟨?_, hlen⟩
          simp only [insertAt, get?_set_self hc, hins, Option.map_some', set_set',
            set_of_get? hc]

/-! ### `modifyNode` inverse lemma -/

theorem modifyNode_nil (t : Node) (f : Node → Option Node) : modifyNode t [] f = f t := by
  cases t <;> rfl

/-- Applying a pointwise inverse rewrite at the same path undoes a
`modifyNode`. -/
theorem modifyNode_inv {f g : Node → Option Node}
    (hfg : ∀ x y, f x = some y → g y = some x) :
    ∀ (p : List Nat) {t t' : Node}, modifyNode t p f = some t' →
      modifyNode t' p g = some t := by
  intro p
  induction p with
  | nil =>
    intro t t' h
    rw [modifyNode_nil] at h
    rw [modifyNode_nil]
    exact hfg t t' h
  | cons i rest ih =>
    intro t t' h
    cases t with
    | char c a => simp [modifyNode] at h
    | element nm at_ cs =>
      simp only [modifyNode] at h
      cases hc : cs.get? i with
      | none => rw [hc] at h; exact absurd h (by simp)
      | some c =>
        rw [hc] at h
        simp only [Option.map_eq_some'] at h
        obtain ⟨c', hc', rfl⟩ := h
        simp only [modifyNode, get?_set_self hc, ih hc', Option.map_some', set_set',
          set_of_get? hc]

/-! ### Attribute map lemmas -/

theorem sortedKeys_pairwise {a : Attrs} (h : sortedKeys a = true) :
    a.Pairwise (fun p q => p.1 < q.1) := by
  induction a with
  | nil => simp
  | cons x t ih =>
    cases t with
    | nil => simp
    | cons y t' =>
      simp only [sortedKeys, Bool.and_eq_true, decide_eq_true_eq] at h
      obtain ⟨hxy, hsub⟩ := h
      have hp := ih hsub
      refine List.Pairwise.cons ?_ hp
      intro z hz
      rcases List.mem_cons.mp hz with rfl | hz
      · exact hxy
      · exact lt_trans hxy (List.rel_of_pairwise_cons hp hz)

theorem pairwise_sortedKeys {a : Attrs} (h : a.Pairwise (fun p q => p.1 < q.1)) :
    sortedKeys a = true := by
  induction a with
  | nil => rfl
  | cons x t ih =>
    cases t with
    | nil => rfl
    | cons y t' =>
      rw [List.pairwise_cons] at h
      obtain ⟨hx, hp⟩ := h
      simp only [sortedKeys, Bool.and_eq_true, decide_eq_true_eq]
      exact ⟨hx y (by simp), ih hp⟩

theorem attrsGet_eraseKeyA (a : Attrs) (k : String) : attrsGet (eraseKeyA a k) k = none := by
  induction a with
  | nil => rfl
  | cons x t ih =>
    by_cases hx : x.1 = k
    · simpa [eraseKeyA, hx] using ih
    · simpa [eraseKeyA, List.filter_cons, hx, attrsGet] using ih

theorem attrsGet_none_not_mem {a : Attrs} {k : String} (h : attrsGet a k = none) :
    ∀ p ∈ a, p.1 ≠ k := by
  induction a with
  | nil => simp
  | cons x t ih =>
    intro p hp
    simp only [attrsGet] at h
    split at h
    · exact absurd h (by simp)
    · rcases List.mem_cons.mp hp with rfl | hp
      · assumption
      · exact ih h p hp

theorem not_mem_attrsGet_none {a : Attrs} {k : String} (h : ∀ p ∈ a, p.1 ≠ k) :
    attrsGet a k = none := by
  induction a with
  | nil => rfl
  | cons x t ih =>
    simp only [attrsGet]
    rw [if_neg (h x (by simp))]
    exact ih fun p hp => h p (by simp [hp])

theorem eraseKeyA_of_none {a : Attrs} {k : String} (h : attrsGet a k = none) :
    eraseKeyA a k = a := by
  induction a with
  | nil => rfl
  | cons x t ih =>
    simp only [attrsGet] at h
    split at h
    · exact absurd h (by simp)
    · next hx =>
      show List.filter _ (x :: t) = x :: t
      rw [List.filter_cons_of_pos (by simpa using hx)]
      exact congrArg (x :: ·) (ih h)

theorem attrsGet_insSorted {a : Attrs} {k : String} (v : String)
    (h : attrsGet a k = none) : attrsGet (insSorted a k v) k = some v := by
  induction a with
  | nil => simp [insSorted, attrsGet]
  | cons x t ih =>
    simp only [attrsGet] at h
    split at h
    · exact absurd h (by simp)
    · next hx =>
      simp only [insSorted]
      split
      · simp [attrsGet]
      · simp only [attrsGet]
        rw [if_neg hx]
        exact ih h

theorem eraseKeyA_insSorted {a : Attrs} {k : String} (v : String)
    (h : attrsGet a k = none) : eraseKeyA (insSorted a k v) k = a := by
  induction a with
  | nil => simp [insSorted, eraseKeyA]
  | cons x t ih =>
    simp only [attrsGet] at h
    split at h
    · exact absurd h (by simp)
    · next hx =>
      simp only [insSorted]
      split
      · show List.filter _ _ = _
        rw [List.filter_cons_of_neg (by simp), List.filter_cons_of_pos (by simpa using hx)]
        exact congrArg (x :: ·) (eraseKeyA_of_none h)
      · show List.filter _ _ = _
        rw [List.filter_cons_of_pos (by simpa using hx)]
        exact congrArg (x :: ·) (ih h)

theorem mem_insSorted {a : Attrs} {k v : String} {z : String × String}
    (h : z ∈ insSorted a k v) : z = (k, v) ∨ z ∈ a := by
  induction a with
  | nil => simpa [insSorted] using h
  | cons x t ih =>
    simp only [insSorted] at h
    split at h
    · rcases List.mem_cons.mp h with rfl | h
      · exact Or.inl rfl
      · exact Or.inr h
    · rcases List.mem_cons.mp h with rfl | h
      · exact Or.inr (by simp)
      · rcases ih h with rfl | h
        · exact Or.inl rfl
        · exact Or.inr (by simp [h])

theorem pairwise_eraseKeyA {a : Attrs} (k : String)
    (h : a.Pairwise (fun p q => p.1 < q.1)) :
    (eraseKeyA a k).Pairwise (fun p q => p.1 < q.1) :=
  h.sublist (List.filter_sublist a)

theorem pairwise_insSorted {a : Attrs} {k : String} (v : String)
    (hs : a.Pairwise (fun p q => p.1 < q.1)) (h : attrsGet a k = none) :
    (insSorted a k v).Pairwise (fun p q => p.1 < q.1) := by
  induction a with
  | nil => simp [insSorted]
  | cons x t ih =>
    simp only [attrsGet] at h
    split at h
    · exact absurd h (by simp)
    · next hx =>
      rw [List.pairwise_cons] at hs
      obtain ⟨hxall, hst⟩ := hs
      simp only [insSorted]
      split
      · next hklt =>
        refine List.Pairwise.cons ?_ (List.Pairwise.cons hxall hst)
        intro z hz
        rcases List.mem_cons.mp hz with rfl | hz
        · exact hklt
        · exact lt_trans hklt (hxall z hz)
      · next hkge =>
        have hxk : x.1 < k := by
          rcases lt_trichotomy x.1 k with hlt | heq | hgt
          · exact hlt
          · exact absurd heq hx
          · exact absurd hgt hkge
        refine List.Pairwise.cons ?_ (ih hst h)
        intro z hz
        rcases mem_insSorted hz with rfl | hz
        · exact hxk
        · exact hxall z hz

theorem insSorted_eraseKeyA {a : Attrs} {k v : String}
    (hs : a.Pairwise (fun p q => p.1 < q.1)) (h : attrsGet a k = some v) :
    insSorted (eraseKeyA a k) k v = a := by
  induction a with
  | nil => simp [attrsGet] at h
  | cons x t ih =>
    rw [List.pairwise_cons] at hs
    obtain ⟨hxall, hst⟩ := hs
    simp only [attrsGet] at h
    split at h
    · next hx =>
      injection h with h
      have hnt : attrsGet t k = none := by
        refine not_mem_attrsGet_none fun p hp => ?_
        have := hxall p hp
        rw [hx] at this
        exact fun hpk => absurd (hpk ▸ this) (lt_irrefl k)
      have hxkv : x = (k, v) := by
        cases x with
        | mk x1 x2 => simp only at hx h; rw [hx, h]
      subst hxkv
      show insSorted (List.filter _ _) _ _ = _
      rw [List.filter_cons_of_neg (by simp)]
      rw [show List.filter (fun p => decide ¬p.1 = k) t = t from eraseKeyA_of_none hnt]
      cases t with
      | nil => rfl
      | cons y t' =>
        have hky : k < y.1 := by simpa using hxall y (by simp)
        simp [insSorted, hky]
    · next hx =>
      have hxk : x.1 < k := by
        obtain ⟨p, hp, hpk⟩ : ∃ p ∈ t, p.1 = k := by
          clear ih hxall hst
          induction t with
          | nil => simp [attrsGet] at h
          | cons y t' iht =>
            simp only [attrsGet] at h
            split at h
            · next hy => exact ⟨y, by simp, hy⟩
            · obtain ⟨p, hp, hpk⟩ := iht h
              exact ⟨p, by simp [hp], hpk⟩
        have := hxall p hp
        rwa [hpk] at this
      show insSorted (List.filter _ _) _ _ = _
      rw [List.filter_cons_of_pos (by simpa using hx)]
      simp only [insSorted]
      rw [if_neg (by exact fun hc => absurd (lt_trans hc hxk) (lt_irrefl k))]
      exact congrArg (x :: ·) (ih hst h)

theorem attrsGet_setAttr (a : Attrs) (k : String) (n : Option String) :
    attrsGet (setAttr a k n) k = n := by
  cases n with
  | none => exact attrsGet_eraseKeyA a k
  | some v => exact attrsGet_insSorted v (attrsGet_eraseKeyA a k)

theorem sortedKeys_setAttr {a : Attrs} (k : String) (n : Option String)
    (h : sortedKeys a = true) : sortedKeys (setAttr a k n) = true := by
  cases n with
  | none => exact pairwise_sortedKeys (pairwise_eraseKeyA k (sortedKeys_pairwise h))
  | some v =>
    exact pairwise_sortedKeys
      (pairwise_insSorted v (pairwise_eraseKeyA k (sortedKeys_pairwise h))
        (attrsGet_eraseKeyA a k))

theorem eraseKeyA_idem (a : Attrs) (k : String) :
    eraseKeyA (eraseKeyA a k) k = eraseKeyA a k :=
  eraseKeyA_of_none (attrsGet_eraseKeyA a k)

/-- Setting the attribute back to its old value restores the map exactly. -/
theorem setAttr_setAttr {a : Attrs} {k : String} {o : Option String} (n : Option String)
    (hs : sortedKeys a = true) (h : attrsGet a k = o) :
    setAttr (setAttr a k n) k o = a := by
  have hps := sortedKeys_pairwise hs
  cases n with
  | none =>
    cases o with
    | none => simp only [setAttr]; rw [eraseKeyA_idem, eraseKeyA_of_none h]
    | some v =>
      simp only [setAttr]
      rw [eraseKeyA_idem]
      exact insSorted_eraseKeyA hps h
  | some w =>
    cases o with
    | none =>
      simp only [setAttr]
      rw [eraseKeyA_insSorted w (attrsGet_eraseKeyA a k), eraseKeyA_of_none h]
    | some v =>
      simp only [setAttr]
      rw [eraseKeyA_insSorted w (attrsGet_eraseKeyA a k)]
      exact insSorted_eraseKeyA hps h

/-- The attribute rewrite of the reverse operation undoes the original
attribute rewrite. -/
theorem attrFn_inv {k : String} {o n : Option String} :
    ∀ x y, attrFn k o n x = some y → attrFn k n o y = some x := by
  intro x y h
  cases x with
  | char c a =>
    simp only [attrFn] at h
    split at h
    · next hcond =>
      obtain ⟨hsort, hget⟩ := hcond
      cases h
      simp only [attrFn]
      rw [if_pos ⟨sortedKeys_setAttr k n hsort, attrsGet_setAttr a k n⟩]
      rw [setAttr_setAttr n hsort hget]
    · exact absurd h (by simp)
  | element nm a cs =>
    simp only [attrFn] at h
    split at h
    · next hcond =>
      obtain ⟨hsort, hget⟩ := hcond
      cases h
      simp only [attrFn]
      rw [if_pos ⟨sortedKeys_setAttr k n hsort, attrsGet_setAttr a k n⟩]
      rw [setAttr_setAttr n hsort hget]
    · exact absurd h (by simp)

/-- The rename of the reverse operation undoes the original rename. -/
theorem renameFn_inv {o n : String} :
    ∀ x y, renameFn o n x = some y → renameFn n o y = some x := by
  intro x y h
  cases x with
  | char c a => simp [renameFn] at h
  | element nm a cs =>
    simp only [renameFn] at h
    split at h
    · next hnm => cases h; simp [renameFn, hnm]
    · exact absurd h (by simp)

/-! ### Marker table lemmas -/

theorem markersGet_filter_ne (ms : List (String × (List Nat × List Nat))) (k : String) :
    markersGet (ms.filter fun p => p.1 ≠ k) k = none := by
  induction ms with
  | nil => rfl
  | cons x t ih =>
    by_cases hx : x.1 = k
    · simpa [List.filter_cons, hx] using ih
    · simpa [List.filter_cons, hx, markersGet] using ih

theorem markersGet_markersSet (ms : List (String × (List Nat × List Nat))) (k : String)
    (r : Option (List Nat × List Nat)) : markersGet (markersSet ms k r) k = r := by
  cases r with
  | none => exact markersGet_filter_ne ms k
  | some x => simp [markersSet, markersGet]

/-! ### Operation reversal round trip -/

/-- State-level inverse: if an operation's mutation succeeds, the mutation of
the reverse variant succeeds on any state with the resulting tree, holding
area and marker table, and restores the original tree. -/
theorem applyKind_inv {doc d doc1 : MDoc} {k : OpKind}
    (h : applyKind doc k = some d)
    (hroot : doc1.root = d.root) (hgy : doc1.graveyard = d.graveyard)
    (hmk : doc1.markers = d.markers) :
    ∃ d2, applyKind doc1 (reverseKind k) = some d2 ∧ d2.root = doc.root := by
  cases k with
  | ins pos nodes =>
    simp only [applyKind, Option.map_eq_some'] at h
    obtain ⟨r, hr, rfl⟩ := h
    have hdet := detachAt_insertAt hr
    refine
      ⟨{ doc1 with
          root := doc.root
          graveyard := doc1.graveyard.take 0 ++ nodes ++ doc1.graveyard.drop 0 },
        ?_, rfl⟩
    simp only [reverseKind, applyKind, hroot]
    rw [hdet]
    simp only [listInsertAt]
    rw [if_pos (Nat.zero_le _)]
    rfl
  | rem src n g =>
    simp only [applyKind] at h
    cases hdet : detachAt doc.root src n with
    | none => rw [hdet] at h; exact absurd h (by simp)
    | some p =>
      rw [hdet] at h
      obtain ⟨r, ns⟩ := p
      simp only [Option.map_eq_some'] at h
      obtain ⟨gy, hgy', rfl⟩ := h
      obtain ⟨hins, hlen⟩ := insertAt_detachAt hdet
      have hext := listExtract_listInsertAt hgy'
      refine ⟨{ doc1 with root := doc.root, graveyard := doc.graveyard }, ?_, rfl⟩
      simp only [reverseKind, applyKind, hgy]
      rw [← hlen, hext, hroot]
      show (insertAt r src ns).map _ = _
      rw [hins]
      rfl
  | reins g n dst =>
    simp only [applyKind] at h
    cases hext : listExtract doc.graveyard g n with
    | none => rw [hext] at h; exact absurd h (by simp)
    | some p =>
      rw [hext] at h
      obtain ⟨gy, ns⟩ := p
      simp only [Option.map_eq_some'] at h
      obtain ⟨r, hr, rfl⟩ := h
      obtain ⟨hins, hlen⟩ := listInsertAt_listExtract hext
      have hdet := detachAt_insertAt hr
      refine ⟨{ doc1 with root := doc.root, graveyard := doc.graveyard }, ?_, rfl⟩
      simp only [reverseKind, applyKind, hroot]
      rw [← hlen, hdet]
      simp only [hgy]
      show (listInsertAt gy g ns).map _ = _
      rw [hins]
      rfl
  | mov src n dst =>
    simp only [applyKind] at h
    cases hdet : detachAt doc.root src n with
    | none => rw [hdet] at h; exact absurd h (by simp)
    | some p =>
      rw [hdet] at h
      obtain ⟨r1, ns⟩ := p
      simp only [Option.map_eq_some'] at h
      obtain ⟨r2, hr2, rfl⟩ := h
      obtain ⟨hins, hlen⟩ := insertAt_detachAt hdet
      have hdet2 := detachAt_insertAt hr2
      refine ⟨{ doc1 with root := doc.root }, ?_, rfl⟩
      simp only [reverseKind, applyKind, hroot]
      rw [← hlen, hdet2]
      show (insertAt r1 src ns).map _ = _
      rw [hins]
      rfl
  | ren pos o n =>
    simp only [applyKind, Option.map_eq_some'] at h
    obtain ⟨r, hr, rfl⟩ := h
    refine ⟨{ doc1 with root := doc.root }, ?_, rfl⟩
    simp only [reverseKind, applyKind, hroot]
    rw [modifyNode_inv renameFn_inv pos hr]
    rfl
  | attr pos key o n =>
    simp only [applyKind, Option.map_eq_some'] at h
    obtain ⟨r, hr, rfl⟩ := h
    refine ⟨{ doc1 with root := doc.root }, ?_, rfl⟩
    simp only [reverseKind, applyKind, hroot]
    rw [modifyNode_inv attrFn_inv pos hr]
    rfl
  | marker name o n =>
    simp only [applyKind] at h
    split at h
    · next hget =>
      cases h
      refine ⟨{ doc1 with markers := markersSet doc1.markers name o }, ?_, hroot⟩
      simp only [reverseKind, applyKind, hmk]
      rw [if_pos (markersGet_markersSet doc.markers name n)]
    · exact absurd h (by simp)
  | noop =>
    simp only [applyKind] at h
    cases h
    exact ⟨doc1, by simp [reverseKind, applyKind], hroot⟩

/-- C2: for every Operation `op` valid against document version `v`, applying
`op` and then `op.getReversed()` succeeds, returns the tree to its exact
pre-`op` state and leaves the document version equal to `v + 2`. -/
theorem C2_reversal_round_trip (doc : MDoc) (op : MOp) (doc1 : MDoc)
    (h : applyOperation doc op = some doc1) :
    ∃ doc2, applyOperation doc1 (getReversed op) = some doc2 ∧
      doc2.root = doc.root ∧ doc2.version = doc.version + 2 := by
  unfold applyOperation at h
  split at h
  case isFalse => exact absurd h (by simp)
  case isTrue hbv =>
    simp only [Option.map_eq_some'] at h
    obtain ⟨d, hd, rfl⟩ := h
    obtain ⟨d2, hd2, hroot⟩ :=
      @applyKind_inv doc d { d with version := doc.version + 1 } op.kind hd rfl rfl rfl
    refine ⟨{ d2 with version := doc.version + 2 }, ?_, hroot, rfl⟩
    unfold applyOperation getReversed
    rw [if_pos (by simp [hbv])]
    simp [hd2]

/-- Witness for C2: a concrete insert round trip. -/
theorem C2_witness :
    applyOperation ⟨.element "$root" [] [], [], [], 0⟩ ⟨.ins [0] [.char 'x' []], 0⟩ =
      some ⟨.element "$root" [] [.char 'x' []], [], [], 1⟩ ∧
    ∃ doc2,
      applyOperation ⟨.element "$root" [] [.char 'x' []], [], [], 1⟩
          (getReversed ⟨.ins [0] [.char 'x' []], 0⟩) = some doc2 ∧
        doc2.root = Node.element "$root" [] [] ∧ doc2.version = 0 + 2 :=
  ⟨rfl, C2_reversal_round_trip ⟨.element "$root" [] [], [], [], 0⟩
    ⟨.ins [0] [.char 'x' []], 0⟩ ⟨.element "$root" [] [.char 'x' []], [], [], 1⟩ rfl⟩

/-! ### `compareArrays` characterization -/

theorem compareArrays_cons_eq (x : Nat) (xs ys : List Nat) :
    compareArrays (x :: xs) (x :: ys) =
      match compareArrays xs ys with
      | .differ i => .differ (i + 1)
      | r => r := by
  simp [compareArrays]

theorem compareArrays_same (a b : List Nat) : compareArrays a b = .same ↔ a = b := by
  induction a generalizing b with
  | nil => cases b <;> simp [compareArrays]
  | cons x xs ih =>
    cases b with
    | nil => simp [compareArrays]
    | cons y ys =>
      by_cases hxy : x = y
      · subst hxy
        rw [compareArrays_cons_eq]
        rcases hr : compareArrays xs ys with _ | _ | _ | i <;>
          simp [List.cons_eq_cons, ← ih, hr]
      · simp [compareArrays, hxy, List.cons_eq_cons]

theorem compareArrays_ne_eq (x y : Nat) (xs ys : List Nat) (hxy : x ≠ y) :
    compareArrays (x :: xs) (y :: ys) = .differ 0 := by
  simp [compareArrays, hxy]

theorem compareArrays_pre (a b : List Nat) :
    compareArrays a b = .pre ↔ ∃ c, c ≠ [] ∧ b = a ++ c := by
  induction a generalizing b with
  | nil =>
    cases b with
    | nil => simp [compareArrays]
    | cons y ys =>
      simp only [compareArrays, List.nil_append, true_iff]
      exact ⟨y :: ys, by simp, rfl⟩
  | cons x xs ih =>
    cases b with
    | nil => simp [compareArrays]
    | cons y ys =>
      by_cases hxy : x = y
      · subst hxy
        rw [compareArrays_cons_eq]
        rcases hr : compareArrays xs ys with _ | _ | _ | i
        · constructor
          · intro h; cases h
          · rintro ⟨c, hc, hbc⟩
            rw [List.cons_append, List.cons_eq_cons] at hbc
            have := (ih ys).mpr ⟨c, hc, hbc.2⟩
            rw [hr] at this; cases this
        · constructor
          · intro _
            obtain ⟨c, hc, hbc⟩ := (ih ys).mp hr
            exact ⟨c, hc, by simp [hbc]⟩
          · intro _; rfl
        · constructor
          · intro h; cases h
          · rintro ⟨c, hc, hbc⟩
            rw [List.cons_append, List.cons_eq_cons] at hbc
            have := (ih ys).mpr ⟨c, hc, hbc.2⟩
            rw [hr] at this; cases this
        · constructor
          · intro h; cases h
          · rintro ⟨c, hc, hbc⟩
            rw [List.cons_append, List.cons_eq_cons] at hbc
            have := (ih ys).mpr ⟨c, hc, hbc.2⟩
            rw [hr] at this; cases this
      · rw [compareArrays_ne_eq x y xs ys hxy]
        constructor
        · intro h; cases h
        · rintro ⟨c, hc, hbc⟩
          rw [List.cons_append, List.cons_eq_cons] at hbc
          exact absurd hbc.1.symm hxy

theorem compareArrays_ext (a b : List Nat) :
    compareArrays a b = .ext ↔ ∃ c, c ≠ [] ∧ a = b ++ c := by
  induction a generalizing b with
  | nil =>
    cases b with
    | nil => simp [compareArrays]
    | cons y ys => simp [compareArrays]
  | cons x xs ih =>
    cases b with
    | nil =>
      simp only [compareArrays, List.nil_append, true_iff]
      exact ⟨x :: xs, by simp, rfl⟩
    | cons y ys =>
      by_cases hxy : x = y
      · subst hxy
        rw [compareArrays_cons_eq]
        rcases hr : compareArrays xs ys with _ | _ | _ | i
        · constructor
          · intro h; cases h
          · rintro ⟨c, hc, hbc⟩
            rw [List.cons_append, List.cons_eq_cons] at hbc
            have := (ih ys).mpr ⟨c, hc, hbc.2⟩
            rw [hr] at this; cases this
        · constructor
          · intro h; cases h
          · rintro ⟨c, hc, hbc⟩
            rw [List.cons_append, List.cons_eq_cons] at hbc
            have := (ih ys).mpr ⟨c, hc, hbc.2⟩
            rw [hr] at this; cases this
        · constructor
          · intro _
            obtain ⟨c, hc, hbc⟩ := (ih ys).mp hr
            exact ⟨c, hc, by simp [hbc]⟩
          · intro _; rfl
        · constructor
          · intro h; cases h
          · rintro ⟨c, hc, hbc⟩
            rw [List.cons_append, List.cons_eq_cons] at hbc
            have := (ih ys).mpr ⟨c, hc, hbc.2⟩
            rw [hr] at this; cases this
      · rw [compareArrays_ne_eq x y xs ys hxy]
        constructor
        · intro h; cases h
        · rintro ⟨c, hc, hbc⟩
          rw [List.cons_append, List.cons_eq_cons] at hbc
          exact absurd hbc.1 hxy

theorem compareArrays_differ (a b : List Nat) (i : Nat) :
    compareArrays a b = .differ i ↔
      (a.get? i ≠ b.get? i ∧ a.get? i ≠ none ∧ b.get? i ≠ none ∧
        ∀ j, j < i → a.get? j = b.get? j) := by
  induction a generalizing b i with
  | nil =>
    cases b with
    | nil =>
      constructor
      · intro h; cases h
      · rintro ⟨h, -⟩; simp at h
    | cons y ys =>
      constructor
      · intro h; cases h
      · rintro ⟨-, ha, -⟩; simp at ha
  | cons x xs ih =>
    cases b with
    | nil =>
      constructor
      · intro h; cases h
      · rintro ⟨-, -, hb, -⟩; simp at hb
    | cons y ys =>
      by_cases hxy : x = y
      · subst hxy
        rw [compareArrays_cons_eq]
        have key : ∀ i', (match compareArrays xs ys with
            | ArrayRelation.differ k => ArrayRelation.differ (k + 1)
            | r => r) = .differ i' ↔
            ∃ k, compareArrays xs ys = .differ k ∧ i' = k + 1 := by
          intro i'
          rcases hr : compareArrays xs ys with _ | _ | _ | k
          · simp [hr]
          · simp [hr]
          · simp [hr]
          · constructor
            · intro h
              have : k + 1 = i' := by injection h
              exact ⟨k, rfl, this.symm⟩
            · rintro ⟨k', hk', hi⟩
              have : k = k' := by injection hk'
              rw [hi, this]
        rw [key i]
        constructor
        · rintro ⟨k, hk, rfl⟩
          obtain ⟨hne, ha, hb, hprev⟩ := (ih ys k).mp hk
          refine ⟨by simpa using hne, by simpa using ha, by simpa using hb, ?_⟩
          intro j hj
          cases j with
          | zero => rfl
          | succ j' => simpa using hprev j' (by omega)
        · rintro ⟨hne, ha, hb, hprev⟩
          cases i with
          | zero => simp at hne
          | succ k =>
            refine ⟨k, (ih ys k).mpr ⟨by simpa using hne, by simpa using ha,
              by simpa using hb, ?_⟩, rfl⟩
            intro j hj
            have := hprev (j + 1) (by omega)
            simpa using this
      · rw [compareArrays_ne_eq x y xs ys hxy]
        constructor
        · intro h
          have hi : 0 = i := by injection h
          subst hi
          exact ⟨by simpa using hxy, by simp, by simp, by omega⟩
        · rintro ⟨hne, -, -, hprev⟩
          cases i with
          | zero => rfl
          | succ j =>
            have := hprev 0 (by omega)
            simp at this
            exact absurd this hxy

/-- C8: position/path comparison follows lexicographic-with-prefix rules:
`compareArrays` returns `'SAME'` exactly when the arrays are elementwise equal
with the same length, `'PREFIX'` exactly when `a` is a proper prefix of `b`,
`'EXTENSION'` exactly when `b` is a proper prefix of `a`, and otherwise the
smallest index at which the two arrays differ (both defined there, all earlier
offsets equal). -/
theorem C8_compareArrays_spec (a b : List Nat) :
    (compareArrays a b = .same ↔ a = b) ∧
    (compareArrays a b = .pre ↔ ∃ c, c ≠ [] ∧ b = a ++ c) ∧
    (compareArrays a b = .ext ↔ ∃ c, c ≠ [] ∧ a = b ++ c) ∧
    (∀ i, compareArrays a b = .differ i ↔
      (a.get? i ≠ b.get? i ∧ a.get? i ≠ none ∧ b.get? i ≠ none ∧
        ∀ j, j < i → a.get? j = b.get? j)) :=
  ⟨compareArrays_same a b, compareArrays_pre a b, compareArrays_ext a b,
    compareArrays_differ a b⟩

/-! ### History lemmas -/

theorem mapGet_mem {ps : List (Nat × Nat)} {k v : Nat} (h : mapGet ps k = some v) :
    (k, v) ∈ ps := by
  induction ps with
  | nil => simp [mapGet] at h
  | cons x t ih =>
    simp only [mapGet] at h
    split at h
    · next hx =>
      injection h with h
      refine List.mem_cons.mpr (Or.inl ?_)
      cases x with
      | mk x1 x2 => simp only at hx h; rw [hx, h]
    · simp [ih h]

theorem not_key_mapGet_none {ps : List (Nat × Nat)} {k : Nat}
    (h : ∀ q ∈ ps, q.1 ≠ k) : mapGet ps k = none := by
  induction ps with
  | nil => rfl
  | cons x t ih =>
    simp only [mapGet]
    rw [if_neg (h x (by simp))]
    exact ih fun q hq => h q (by simp [hq])

theorem mapGet_append_left {ps qs : List (Nat × Nat)} {k v : Nat}
    (h : mapGet ps k = some v) : mapGet (ps ++ qs) k = some v := by
  induction ps with
  | nil => simp [mapGet] at h
  | cons x t ih =>
    simp only [mapGet] at h ⊢
    split at h
    · next hx => rw [if_pos hx]; exact h
    · next hx => rw [if_neg hx]; exact ih h

theorem mapGet_append_right {ps qs : List (Nat × Nat)} {k : Nat}
    (h : mapGet ps k = none) : mapGet (ps ++ qs) k = mapGet qs k := by
  induction ps with
  | nil => rfl
  | cons x t ih =>
    simp only [mapGet] at h ⊢
    split at h
    · exact absurd h (by simp)
    · next hx => rw [if_neg hx]; exact ih h

theorem mapSet_of_absent {ps : List (Nat × Nat)} {k : Nat} (v : Nat)
    (h : ∀ q ∈ ps, q.1 ≠ k) : mapSet ps k v = ps ++ [(k, v)] := by
  induction ps with
  | nil => rfl
  | cons x t ih =>
    simp only [mapSet]
    rw [if_neg (h x (by simp))]
    exact congrArg (x :: ·) (ih fun q hq => h q (by simp [hq]))

/-- Prop-level reading of the `History.inv` Boolean invariant. -/
theorem inv_iff (h : History) : h.inv = true ↔
    ((∀ p ∈ h.points, ∃ d, h.deltas.get? p.2 = some d ∧ d.baseVersion = p.1) ∧
     (∀ i d, h.deltas.get? i = some d → mapGet h.points d.baseVersion = some i)) := by
  unfold History.inv
  rw [Bool.and_eq_true, List.all_eq_true, List.all_eq_true]
  constructor
  · rintro ⟨h1, h2⟩
    constructor
    · intro p hp
      have := h1 p hp
      cases hg : h.deltas.get? p.2 with
      | none => rw [hg] at this; cases this
      | some d =>
        rw [hg] at this
        exact ⟨d, rfl, by simpa using this⟩
    · intro i d hd
      have hi : i < h.deltas.length := by
        by_contra hcon
        rw [List.get?_eq_none.mpr (by omega)] at hd
        cases hd
      have := h2 i (by simpa using hi)
      rw [hd] at this
      simpa using this
  · rintro ⟨h1, h2⟩
    constructor
    · intro p hp
      obtain ⟨d, hd, hbv⟩ := h1 p hp
      rw [hd]
      simpa using hbv
    · intro i hi
      simp only [List.mem_range] at hi
      cases hg : h.deltas.get? i with
      | none =>
        rw [List.get?_eq_none] at hg
        omega
      | some d =>
        simpa using h2 i d hg

/-- C3: for every `from`, `getDeltas( from )` fails with the
`history-wrong-version` condition exactly when `from` was never recorded as
the base version of a history delta; when it was recorded, it yields every
recorded delta from that history point to the end, in application order, with
no partial result. -/
theorem C3_getDeltas_spec (h : History) (from_ : Nat) (hinv : h.inv = true) :
    (h.getDeltas from_ = .error .wrongVersion ↔ ∀ d ∈ h.deltas, d.baseVersion ≠ from_) ∧
    (∀ i d, h.deltas.get? i = some d → d.baseVersion = from_ →
      h.getDeltas from_ = .ok (h.deltas.drop i)) := by
  obtain ⟨hpts, hdel⟩ := (inv_iff h).mp hinv
  constructor
  · unfold History.getDeltas
    cases hm : mapGet h.points from_ with
    | none =>
      simp only [true_iff]
      intro d hd hbv
      obtain ⟨i, hi⟩ := List.get_of_mem hd
      have := hdel i d (by rw [← hi]; exact (List.get?_eq_get i.2).symm ▸ rfl)
      rw [hbv, hm] at this
      cases this
    | some idx =>
      constructor
      · intro hcon; cases hcon
      · intro hall
        obtain ⟨d, hd, hbv⟩ := hpts (from_, idx) (mapGet_mem hm)
        have hmem : d ∈ h.deltas := by
          rw [List.get?_eq_some] at hd
          obtain ⟨hlt, hget⟩ := hd
          rw [← hget]
          exact List.get_mem _ _ _
        exact absurd hbv (hall d hmem)
  · intro i d hd hbv
    unfold History.getDeltas
    have := hdel i d hd
    rw [hbv] at this
    rw [this]

/-- Witness for C3: a concrete two-delta history. -/
theorem C3_witness :
    (History.getDeltas ⟨[⟨1, 0, 2⟩, ⟨2, 2, 1⟩], [(0, 0), (2, 1)]⟩ 2 =
      .ok [⟨2, 2, 1⟩]) ∧
    (History.getDeltas ⟨[⟨1, 0, 2⟩, ⟨2, 2, 1⟩], [(0, 0), (2, 1)]⟩ 1 =
      .error .wrongVersion) := by
  have hspec1 := C3_getDeltas_spec ⟨[⟨1, 0, 2⟩, ⟨2, 2, 1⟩], [(0, 0), (2, 1)]⟩ 2 (by rfl)
  have hspec2 := C3_getDeltas_spec ⟨[⟨1, 0, 2⟩, ⟨2, 2, 1⟩], [(0, 0), (2, 1)]⟩ 1 (by rfl)
  constructor
  · exact hspec1.2 1 ⟨2, 2, 1⟩ rfl rfl
  · exact hspec2.1.mpr (by decide)

theorem addOperation_none (h : History) (op : HOp) (hd : op.delta = none) :
    h.addOperation op = h := by
  unfold History.addOperation
  rw [hd]

theorem addOperation_some (h : History) (op : HOp) (d : HDelta) (hd : op.delta = some d) :
    h.addOperation op =
      if h.deltas.getLast? = some d then h
      else ⟨h.deltas ++ [d], mapSet h.points d.baseVersion h.deltas.length⟩ := by
  unfold History.addOperation
  rw [hd]

theorem addOperations_fixpoint {d : HDelta} (ops : List HOp) :
    ∀ (h : History), (∀ op ∈ ops, op.delta = some d) →
      h.deltas.getLast? = some d → h.addOperations ops = h := by
  induction ops with
  | nil => intro h _ _; rfl
  | cons op rest ih =>
    intro h hall hlast
    have hop : op.delta = some d := hall op (by simp)
    have hstep : h.addOperation op = h := by
      rw [addOperation_some h op d hop, if_pos hlast]
    show History.addOperations (h.addOperation op) rest = h
    rw [hstep]
    exact ih h (fun o ho => hall o (by simp [ho])) hlast

/-- C6: adding the operations of one Delta consecutively yields exactly one
new history entry keyed by the delta's base version; the log is append-only;
and the base-version index invariant is preserved. -/
theorem C6_addOperation_spec :
    (∀ (h : History) (d : HDelta) (ops : List HOp),
      ops ≠ [] → (∀ op ∈ ops, op.delta = some d) → h.deltas.getLast? ≠ some d →
      (h.addOperations ops).deltas = h.deltas ++ [d] ∧
      (h.addOperations ops).points = mapSet h.points d.baseVersion h.deltas.length) ∧
    (∀ (h : History) (op : HOp), ∃ tail, (h.addOperation op).deltas = h.deltas ++ tail) ∧
    (∀ (h : History) (op : HOp), h.inv = true →
      (∀ d, op.delta = some d →
        h.deltas.getLast? = some d ∨ ∀ d' ∈ h.deltas, d'.baseVersion ≠ d.baseVersion) →
      (h.addOperation op).inv = true) := by
  refine ⟨?_, ?_, ?_⟩
  · intro h d ops hne hall hlast
    cases ops with
    | nil => exact absurd rfl hne
    | cons op rest =>
      have hop : op.delta = some d := hall op (by simp)
      have hstep : h.addOperation op =
          ⟨h.deltas ++ [d], mapSet h.points d.baseVersion h.deltas.length⟩ := by
        rw [addOperation_some h op d hop, if_neg hlast]
      have hrun : h.addOperations (op :: rest) =
          ⟨h.deltas ++ [d], mapSet h.points d.baseVersion h.deltas.length⟩ := by
        show History.addOperations (h.addOperation op) rest = _
        rw [hstep]
        exact addOperations_fixpoint rest _ (fun o ho => hall o (by simp [ho])) (by simp)
      rw [hrun]
      exact ⟨rfl, rfl⟩
  · intro h op
    cases hd : op.delta with
    | none => exact ⟨[], by rw [addOperation_none h op hd]; simp⟩
    | some d =>
      by_cases hlast : h.deltas.getLast? = some d
      · rw [addOperation_some h op d hd, if_pos hlast]
        exact ⟨[], by simp⟩
      · rw [addOperation_some h op d hd, if_neg hlast]
        exact ⟨[d], rfl⟩
  · intro h op hinv hcond
    cases hd : op.delta with
    | none => rw [addOperation_none h op hd]; exact hinv
    | some d =>
      by_cases hlast : h.deltas.getLast? = some d
      · rw [addOperation_some h op d hd, if_pos hlast]; exact hinv
      · rw [addOperation_some h op d hd, if_neg hlast]
        have hfresh : ∀ d' ∈ h.deltas, d'.baseVersion ≠ d.baseVersion := by
          rcases hcond d hd with hc | hc
          · exact absurd hc hlast
          · exact hc
        obtain ⟨hpts, hdel⟩ := (inv_iff h).mp hinv
        have hkey : ∀ q ∈ h.points, q.1 ≠ d.baseVersion := by
          intro q hq hqk
          obtain ⟨d', hd', hbv⟩ := hpts q hq
          have hmem : d' ∈ h.deltas := by
            rw [List.get?_eq_some] at hd'
            obtain ⟨hlt, hget⟩ := hd'
            rw [← hget]
            exact List.get_mem _ _ _
          exact hfresh d' hmem (by rw [hbv, hqk])
        refine (inv_iff _).mpr ⟨?_, ?_⟩
        · intro p hp
          rw [show (History.mk (h.deltas ++ [d])
              (mapSet h.points d.baseVersion h.deltas.length)).points =
            mapSet h.points d.baseVersion h.deltas.length from rfl,
            mapSet_of_absent h.deltas.length hkey] at hp
          rcases List.mem_append.mp hp with hp | hp
          · obtain ⟨d', hd', hbv⟩ := hpts p hp
            refine ⟨d', ?_, hbv⟩
            have hlt : p.2 < h.deltas.length := by
              rw [List.get?_eq_some] at hd'
              exact hd'.1
            show (h.deltas ++ [d]).get? p.2 = some d'
            rw [List.get?_append hlt]
            exact hd'
          · have hp' : p = (d.baseVersion, h.deltas.length) := by simpa using hp
            subst hp'
            exact ⟨d, by simp [List.get?_concat_length], rfl⟩
        · intro i d' hd'
          show mapGet (mapSet h.points d.baseVersion h.deltas.length) d'.baseVersion = some i
          rw [mapSet_of_absent h.deltas.length hkey]
          replace hd' : (h.deltas ++ [d]).get? i = some d' := hd'
          by_cases hi : i < h.deltas.length
          · have hget : h.deltas.get? i = some d' := by
              rw [← hd']
              exact (List.get?_append hi).symm
            exact mapGet_append_left (hdel i d' hget)
          · have hieq : i = h.deltas.length := by
              have hlt : i < (h.deltas ++ [d]).length := by
                rw [List.get?_eq_some] at hd'
                exact hd'.1
              simp only [List.length_append, List.length_singleton] at hlt
              omega
            subst hieq
            have hdd : d' = d := by
              rw [List.get?_concat_length] at hd'
              injection hd' with hd'
              exact hd'.symm
            subst hdd
            rw [mapGet_append_right (not_key_mapGet_none hkey)]
            simp [mapGet]

/-- Witness for C6: one delta's two operations create a single entry. -/
theorem C6_witness :
    ((History.empty.addOperations [⟨some ⟨1, 0, 2⟩⟩, ⟨some ⟨1, 0, 2⟩⟩]).deltas =
        History.empty.deltas ++ [⟨1, 0, 2⟩] ∧
      (History.empty.addOperations [⟨some ⟨1, 0, 2⟩⟩, ⟨some ⟨1, 0, 2⟩⟩]).points =
        mapSet History.empty.points 0 0) ∧
    (∃ tail, (History.empty.addOperation ⟨some ⟨1, 0, 2⟩⟩).deltas =
      History.empty.deltas ++ tail) ∧
    (History.empty.addOperation ⟨some ⟨1, 0, 2⟩⟩).inv = true := by
  refine ⟨?_, ?_, ?_⟩
  · exact C6_addOperation_spec.1 History.empty ⟨1, 0, 2⟩ [⟨some ⟨1, 0, 2⟩⟩, ⟨some ⟨1, 0, 2⟩⟩]
      (by simp) (by simp) (by simp [History.empty])
  · exact C6_addOperation_spec.2.1 History.empty ⟨some ⟨1, 0, 2⟩⟩
  · exact C6_addOperation_spec.2.2 History.empty ⟨some ⟨1, 0, 2⟩⟩ (by rfl)
      (by intro d hd; right; simp [History.empty])

theorem innerLoop_eq_flatMap (t : HDelta → HDelta → Bool → List HDelta)
    (ws : List HDelta) (hd : HDelta) :
    History.innerLoop t ws hd = ws.flatMap fun w => History.hTransform t w hd := by
  induction ws with
  | nil => rfl
  | cons w rest ih => simp [History.innerLoop, ih]

theorem outerLoop_eq_foldl (t : HDelta → HDelta → Bool → List HDelta)
    (ds : List HDelta) :
    ∀ ws, History.outerLoop t ws ds =
      ds.foldl (fun ws hd => ws.flatMap fun w => History.hTransform t w hd) ws := by
  induction ds with
  | nil => intro ws; rfl
  | cons hd rest ih =>
    intro ws
    show History.outerLoop t (History.innerLoop t ws hd) rest = _
    rw [ih, innerLoop_eq_flatMap]
    rfl

theorem getTransformedDelta_none (t : HDelta → HDelta → Bool → List HDelta)
    (h : History) (d : HDelta) (hp : h.nextHistoryPoint = none) :
    History.getTransformedDelta t h d = .error .typeError := by
  unfold History.getTransformedDelta
  rw [hp]

theorem getTransformedDelta_some (t : HDelta → HDelta → Bool → List HDelta)
    (h : History) (d : HDelta) (p : Nat) (hp : h.nextHistoryPoint = some p) :
    History.getTransformedDelta t h d =
      if d.baseVersion = p then .ok [d]
      else
        match h.getDeltas d.baseVersion with
        | .error e => .error e
        | .ok ds => .ok (History.outerLoop t [d] ds) := by
  unfold History.getTransformedDelta
  rw [hp]

/-- C10: History's internal transform is the delta transformation invoked
with `isStrong = false`, and `getTransformedDelta` only ever consults the
external transformation at `isStrong = false`: its result is unchanged under
any modification of the transformation's `isStrong = true` behaviour. -/
theorem C10_weak_transform :
    (∀ (t : HDelta → HDelta → Bool → List HDelta) (a b : HDelta),
      History.hTransform t a b = t a b false) ∧
    (∀ (t t' : HDelta → HDelta → Bool → List HDelta) (h : History) (d : HDelta),
      (∀ a b, t a b false = t' a b false) →
      History.getTransformedDelta t h d = History.getTransformedDelta t' h d) := by
  constructor
  · intro t a b; rfl
  · intro t t' h d hw
    have hinner : ∀ ws hd, History.innerLoop t ws hd = History.innerLoop t' ws hd := by
      intro ws hd
      induction ws with
      | nil => rfl
      | cons w rest ih =>
        show History.hTransform t w hd ++ _ = History.hTransform t' w hd ++ _
        rw [ih, History.hTransform, History.hTransform, hw]
    have houter : ∀ ds ws, History.outerLoop t ws ds = History.outerLoop t' ws ds := by
      intro ds
      induction ds with
      | nil => intro ws; rfl
      | cons hd rest ih =>
        intro ws
        show History.outerLoop t (History.innerLoop t ws hd) rest = _
        rw [hinner, ih]
        rfl
    cases hp : h.nextHistoryPoint with
    | none => rw [getTransformedDelta_none t h d hp, getTransformedDelta_none t' h d hp]
    | some p =>
      rw [getTransformedDelta_some t h d p hp, getTransformedDelta_some t' h d p hp]
      by_cases hbv : d.baseVersion = p
      · rw [if_pos hbv, if_pos hbv]
      · rw [if_neg hbv, if_neg hbv]
        cases hres : h.getDeltas d.baseVersion with
        | error e => rfl
        | ok ds =>
          show Except.ok (History.outerLoop t [d] ds) = Except.ok (History.outerLoop t' [d] ds)
          rw [houter]

/-- Witness for C10: two transformations agreeing at `isStrong = false` but
not at `isStrong = true` produce the same rebase result. -/
theorem C10_witness :
    History.getTransformedDelta (fun a _ s => if s then [] else [a])
        ⟨[⟨1, 0, 2⟩], [(0, 0)]⟩ ⟨2, 0, 1⟩ =
      History.getTransformedDelta (fun a _ _ => [a]) ⟨[⟨1, 0, 2⟩], [(0, 0)]⟩ ⟨2, 0, 1⟩ :=
  C10_weak_transform.2 (fun a _ s => if s then [] else [a]) (fun a _ _ => [a])
    ⟨[⟨1, 0, 2⟩], [(0, 0)]⟩ ⟨2, 0, 1⟩ (fun _ _ => rfl)

theorem nextHistoryPoint_of_empty (h : History) (he : h.deltas = []) :
    h.nextHistoryPoint = none := by
  unfold History.nextHistoryPoint
  rw [he]
  rfl

/-- Counterexample for C1: on a History with no recorded deltas, the claim
requires the fast path to return `[ delta ]` for an up-to-date delta (base
version 0), but `getTransformedDelta` faults in `_nextHistoryPoint` instead of
returning it. -/
theorem C1_counterexample :
    History.getTransformedDelta (fun a _ _ => [a]) History.empty ⟨0, 0, 1⟩ ≠
      Except.ok [⟨0, 0, 1⟩] := by
  rw [getTransformedDelta_none _ _ _ (nextHistoryPoint_of_empty _ rfl)]
  intro hcon
  cases hcon

/-- C1 (amended): when the history is non-empty, `getTransformedDelta`
returns `[ delta ]` unchanged exactly on the fast path
(`delta.baseVersion = ` the last recorded delta's base version plus its
operation count), and otherwise equals the claim's fold — every recorded
delta at or after `delta.baseVersion` in application order, the working set
replaced by the concatenation of the transforms of each working delta.  On a
History with no recorded deltas it fails instead of taking the fast path. -/
theorem C1_getTransformedDelta_spec :
    (∀ (t : HDelta → HDelta → Bool → List HDelta) (h : History) (d : HDelta),
      h.deltas = [] → History.getTransformedDelta t h d = .error .typeError) ∧
    (∀ (t : HDelta → HDelta → Bool → List HDelta) (h : History) (d : HDelta) (p : Nat),
      h.nextHistoryPoint = some p → d.baseVersion = p →
      History.getTransformedDelta t h d = .ok [d]) ∧
    (∀ (t : HDelta → HDelta → Bool → List HDelta) (h : History) (d : HDelta) (p : Nat),
      h.nextHistoryPoint = some p → d.baseVersion ≠ p →
      History.getTransformedDelta t h d = History.specSlowPath t h d) := by
  refine ⟨?_, ?_, ?_⟩
  · intro t h d he
    exact getTransformedDelta_none t h d (nextHistoryPoint_of_empty h he)
  · intro t h d p hp hbv
    rw [getTransformedDelta_some t h d p hp, if_pos hbv]
  · intro t h d p hp hbv
    rw [getTransformedDelta_some t h d p hp, if_neg hbv]
    unfold History.specSlowPath
    cases hres : h.getDeltas d.baseVersion with
    | error e => rfl
    | ok ds =>
      show Except.ok (History.outerLoop t [d] ds) = Except.ok _
      rw [outerLoop_eq_foldl]

/-- Witness for C1: the three branches at concrete inputs. -/
theorem C1_witness :
    History.getTransformedDelta (fun a _ _ => [a]) History.empty ⟨0, 0, 1⟩ =
      .error .typeError ∧
    History.getTransformedDelta (fun a _ _ => [a]) ⟨[⟨1, 0, 2⟩], [(0, 0)]⟩ ⟨2, 2, 1⟩ =
      .ok [⟨2, 2, 1⟩] ∧
    History.getTransformedDelta (fun a _ _ => [a]) ⟨[⟨1, 0, 2⟩], [(0, 0)]⟩ ⟨2, 0, 1⟩ =
      History.specSlowPath (fun a _ _ => [a]) ⟨[⟨1, 0, 2⟩], [(0, 0)]⟩ ⟨2, 0, 1⟩ :=
  ⟨C1_getTransformedDelta_spec.1 _ History.empty ⟨0, 0, 1⟩ rfl,
   C1_getTransformedDelta_spec.2.1 _ _ ⟨2, 2, 1⟩ 2 rfl rfl,
   C1_getTransformedDelta_spec.2.2 _ _ ⟨2, 0, 1⟩ 2 rfl (by decide)⟩

/-! ### Split and delta claims -/

/-- C5: splitting the document `<$root><p key=value>foobar</p></$root>` at
offset 3 inside the paragraph yields a root with exactly two children, both
carrying only the attribute `key = value`, the first containing `"foo"` and
the second `"bar"`. -/
theorem C5_split_scenario :
    batchSplit
        (.element "$root" []
          [.element "p" [("key", "value")]
            [.char 'f' [], .char 'o' [], .char 'o' [],
             .char 'b' [], .char 'a' [], .char 'r' []]])
        [0, 3] =
      .ok (.element "$root" []
        [.element "p" [("key", "value")] [.char 'f' [], .char 'o' [], .char 'o' []],
         .element "p" [("key", "value")] [.char 'b' [], .char 'a' [], .char 'r' []]]) :=
  rfl

/-- C7: a split at a position whose path has length 1 (directly under the
root) is rejected with the `batch-split-root` condition; no tree is
produced, so the document is left unchanged. -/
theorem C7_split_root_rejected (root : Node) (p : List Nat) (hp : p.length = 1) :
    batchSplit root p = .error .splitRoot := by
  unfold batchSplit
  rw [if_pos (by omega)]

/-- Witness for C7: splitting at `[ 0 ]`. -/
theorem C7_witness :
    batchSplit (.element "$root" [] [.element "p" [] []]) [0] = .error .splitRoot :=
  C7_split_root_rejected (.element "$root" [] [.element "p" [] []]) [0] rfl

/-- C9: an empty Delta is valid-but-empty: its position is `null`, and an
empty SplitDelta reverses to an empty MergeDelta. -/
theorem C9_empty_delta (d : MDelta) (hk : d.kind = .split) (ho : d.operations = []) :
    deltaPosition d = none ∧ (getReversedDelta d).kind = .merge ∧
      (getReversedDelta d).operations = [] := by
  refine ⟨?_, ?_, ?_⟩
  · unfold deltaPosition
    rw [ho]
    rfl
  · show reverseDKind d.kind = .merge
    rw [hk]
    rfl
  · show (d.operations.map getReversed).reverse = []
    rw [ho]
    rfl

/-- Witness for C9: the empty SplitDelta. -/
theorem C9_witness :
    deltaPosition ⟨.split, []⟩ = none ∧ (getReversedDelta ⟨.split, []⟩).kind = .merge ∧
      (getReversedDelta ⟨.split, []⟩).operations = [] :=
  C9_empty_delta ⟨.split, []⟩ rfl rfl

/-! ### TreeWalker: backward raw traversal is the reverse of forward -/

theorem rawB_eq_reverse (f : Nat) (sh : Bool) (cs : List Node) :
    rawB f sh cs = (rawF f sh cs).map List.reverse := by
  induction f, sh, cs using rawF.induct with
  | case1 f sh => simp [rawF, rawB]
  | case2 f sh c a rest ih =>
    simp only [rawF, rawB, ih]
    cases rawF f sh rest with
    | none => rfl
    | some l => simp
  | case3 f nm a cs rest ih =>
    have hF : rawF f true (Node.element nm a cs :: rest) =
        (rawF f true rest).map (WEvent.elemStart (.element nm a cs) :: ·) := by
      cases f <;> simp [rawF]
    have hB : rawB f true (Node.element nm a cs :: rest) =
        (rawB f true rest).map (· ++ [WEvent.elemStart (.element nm a cs)]) := by
      cases f <;> simp [rawB]
    rw [hF, hB, ih]
    cases rawF f true rest with
    | none => rfl
    | some l => simp
  | case4 sh nm a cs rest hsh =>
    simp [rawF, rawB, if_neg hsh]
  | case5 sh nm a cs rest hsh f' inner tail htail hinner ihinner ihtail =>
    simp only [rawF, rawB, if_neg hsh, hinner, htail, ihinner, ihtail, Option.map_some']
    simp
  | case6 sh nm a cs rest hsh f' hnot ihinner ihtail =>
    simp only [rawF, rawB, if_neg hsh, ihinner, ihtail]
    cases hinner : rawF f' sh cs with
    | none => rfl
    | some inner =>
      cases htail : rawF (f' + 1) sh rest with
      | none => rfl
      | some tail => exact absurd (hnot inner tail hinner htail) (by simp)

theorem browB_eq_reverse (f : Nat) (sh : Bool) (cs : List Node) (a b : List Nat) :
    browB f sh cs a b = (browF f sh cs a b).map List.reverse := by
  induction f generalizing sh cs a b with
  | zero =>
    rw [browF.eq_def, browB.eq_def]
    rcases a with - | ⟨sa, - | ⟨a1, arest⟩⟩ <;> rcases b with - | ⟨sb, - | ⟨b1, brest⟩⟩ <;>
        try dsimp only
    · rfl
    · rfl
    · rfl
    · rfl
    · by_cases hcond : sa ≤ sb ∧ sb ≤ cs.length
      · rw [if_pos hcond, if_pos hcond]
        exact rawB_eq_reverse 0 sh _
      · rw [if_neg hcond, if_neg hcond]
        rfl
    · cases sh <;> rfl
    · rfl
    · cases sh <;> rfl
    · cases sh <;> rfl
  | succ f' ih =>
    rw [browF.eq_def, browB.eq_def]
    rcases a with - | ⟨sa, - | ⟨a1, arest⟩⟩ <;> rcases b with - | ⟨sb, - | ⟨b1, brest⟩⟩ <;>
        try dsimp only
    · rfl
    · rfl
    · rfl
    · rfl
    · by_cases hcond : sa ≤ sb ∧ sb ≤ cs.length
      · rw [if_pos hcond, if_pos hcond]
        exact rawB_eq_reverse (f' + 1) sh _
      · rw [if_neg hcond, if_neg hcond]
        rfl
    · -- a = [ sa ], b descends
      cases sh with
      | true => rfl
      | false =>
        try dsimp only
        cases hgb : cs.get? sb with
        | none => rfl
        | some n =>
          cases n with
          | char c at_ => rfl
          | element nm at_ ccs =>
            try dsimp only
            by_cases hle : sa ≤ sb
            · rw [if_pos hle, if_pos hle, rawB_eq_reverse, ih]
              cases rawF (f' + 1) false (slice cs sa sb) with
              | none => rfl
              | some pre =>
                cases browF f' false ccs [0] (b1 :: brest) with
                | none => rfl
                | some inner => simp
            · rw [if_neg hle, if_neg hle]
              rfl
    · rfl
    · -- a descends, b = [ sb ]
      cases sh with
      | true => rfl
      | false =>
        try dsimp only
        cases hga : cs.get? sa with
        | none => rfl
        | some n =>
          cases n with
          | char c at_ => rfl
          | element nm at_ ccs =>
            try dsimp only
            by_cases hcond : sa < sb ∧ sb ≤ cs.length
            · rw [if_pos hcond, if_pos hcond, rawB_eq_reverse, ih]
              cases browF f' false ccs (a1 :: arest) [ccs.length] with
              | none => rfl
              | some inner =>
                cases rawF (f' + 1) false (slice cs (sa + 1) sb) with
                | none => rfl
                | some post => simp
            · rw [if_neg hcond, if_neg hcond]
              rfl
    · -- both descend
      cases sh with
      | true => rfl
      | false =>
        try dsimp only
        by_cases heq : sa = sb
        · rw [if_pos heq, if_pos heq]
          cases hga : cs.get? sa with
          | none => rfl
          | some n =>
            cases n with
            | char c at_ => rfl
            | element nm at_ ccs => exact ih false ccs (a1 :: arest) (b1 :: brest)
        · rw [if_neg heq, if_neg heq]
          by_cases hlt : sa < sb
          · rw [if_pos hlt, if_pos hlt]
            cases hga : cs.get? sa with
            | none =>
              cases hgb : cs.get? sb with
              | none => rfl
              | some n => cases n <;> rfl
            | some n =>
              cases n with
              | char c at_ =>
                cases hgb : cs.get? sb with
                | none => rfl
                | some n' => cases n' <;> rfl
              | element nma atsa ccsa =>
                cases hgb : cs.get? sb with
                | none => rfl
                | some n' =>
                  cases n' with
                  | char c at_ => rfl
                  | element nmb atsb ccsb =>
                    try dsimp only
                    rw [rawB_eq_reverse, ih, ih]
                    cases browF f' false ccsa (a1 :: arest) [ccsa.length] with
                    | none => rfl
                    | some innerA =>
                      cases rawF (f' + 1) false (slice cs (sa + 1) sb) with
                      | none => rfl
                      | some mid =>
                        cases browF f' false ccsb [0] (b1 :: brest) with
                        | none => rfl
                        | some innerB => simp
          · rw [if_neg hlt, if_neg hlt]
            rfl

/-! ### TreeWalker: text-run merging commutes with reversal -/

theorem chrChars_append (l1 l2 : List WEvent) :
    chrChars (l1 ++ l2) = chrChars l1 ++ chrChars l2 := by
  induction l1 with
  | nil => rfl
  | cons x xs ih => cases x <;> simp [chrChars, ih]

theorem chrChars_reverse (l : List WEvent) : chrChars l.reverse = (chrChars l).reverse := by
  induction l with
  | nil => rfl
  | cons x xs ih =>
    cases x <;> simp [chrChars, chrChars_append, ih]

theorem isChrA_inv {a : Attrs} {e : WEvent} (h : isChrA a e = true) :
    ∃ c, e = .chr c a := by
  cases e with
  | chr c a' =>
    simp only [isChrA, decide_eq_true_eq] at h
    exact ⟨c, by rw [h]⟩
  | elemStart e => simp [isChrA] at h
  | elemEnd e => simp [isChrA] at h
  | txt cs a' => simp [isChrA] at h

theorem tdw_append (p : WEvent → Bool) (m z : List WEvent)
    (hz : ∀ x, z.head? = some x → p x = false) :
    (m ++ z).takeWhile p = m.takeWhile p ∧ (m ++ z).dropWhile p = m.dropWhile p ++ z := by
  induction m with
  | nil =>
    simp only [List.nil_append, List.takeWhile_nil, List.dropWhile_nil]
    cases z with
    | nil => simp
    | cons y ys =>
      have := hz y rfl
      simp [List.takeWhile_cons, List.dropWhile_cons, this]
  | cons x xs ih =>
    by_cases hx : p x = true
    · simp [List.takeWhile_cons, List.dropWhile_cons, hx, ih.1, ih.2]
    · simp only [Bool.not_eq_true] at hx
      simp [List.takeWhile_cons, List.dropWhile_cons, hx]

theorem tdw_append_fail (p : WEvent → Bool) (m z : List WEvent)
    (hm : ∃ x ∈ m, p x = false) :
    (m ++ z).takeWhile p = m.takeWhile p ∧ (m ++ z).dropWhile p = m.dropWhile p ++ z := by
  induction m with
  | nil => obtain ⟨x, hx, -⟩ := hm; simp at hx
  | cons y ys ih =>
    by_cases hy : p y = true
    · have hm' : ∃ x ∈ ys, p x = false := by
        obtain ⟨x, hx, hpx⟩ := hm
        rcases List.mem_cons.mp hx with rfl | hx
        · rw [hy] at hpx; cases hpx
        · exact ⟨x, hx, hpx⟩
      simp [List.takeWhile_cons, List.dropWhile_cons, hy, (ih hm').1, (ih hm').2]
    · simp only [Bool.not_eq_true] at hy
      simp [List.takeWhile_cons, List.dropWhile_cons, hy]

theorem tdw_all (p : WEvent → Bool) (m : List WEvent) (hm : ∀ x ∈ m, p x = true) :
    m.takeWhile p = m ∧ m.dropWhile p = [] := by
  induction m with
  | nil => simp
  | cons x xs ih =>
    have hx := hm x (by simp)
    have hrest := ih fun y hy => hm y (by simp [hy])
    simp [List.takeWhile_cons, List.dropWhile_cons, hx, hrest.1, hrest.2]

theorem dropWhile_head_false (p : WEvent → Bool) (l : List WEvent) {y : WEvent}
    {ys : List WEvent} (h : l.dropWhile p = y :: ys) : p y = false := by
  have := List.head?_dropWhile_not p l
  rw [h] at this
  exact this

theorem getLast?_dropWhile (p : WEvent → Bool) (l : List WEvent)
    (hne : l.dropWhile p ≠ []) : (l.dropWhile p).getLast? = l.getLast? := by
  obtain ⟨t, ht⟩ : ∃ t, t ++ l.dropWhile p = l := ⟨l.takeWhile p, List.takeWhile_append_dropWhile p l⟩
  conv_rhs => rw [← ht]
  cases hd : l.dropWhile p with
  | nil => exact absurd hd hne
  | cons y ys =>
    rw [List.getLast?_append_of_ne_nil]
    simp

theorem mergeF_nil : mergeF [] = [] := by simp [mergeF]

theorem mergeB_nil : mergeB [] = [] := by simp [mergeB]

/-- One-step unfolding of `mergeF` at a non-character head. -/
theorem mergeF_cons_notChr (x : WEvent) (rest : List WEvent)
    (hx : ∀ c a, x ≠ .chr c a) : mergeF (x :: rest) = x :: mergeF rest := by
  cases x with
  | chr c a => exact absurd rfl (hx c a)
  | elemStart y => simp [mergeF]
  | elemEnd y => simp [mergeF]
  | txt cs a => simp [mergeF]

/-- One-step unfolding of `mergeB` at a non-character head. -/
theorem mergeB_cons_notChr (x : WEvent) (rest : List WEvent)
    (hx : ∀ c a, x ≠ .chr c a) : mergeB (x :: rest) = x :: mergeB rest := by
  cases x with
  | chr c a => exact absurd rfl (hx c a)
  | elemStart y => simp [mergeB]
  | elemEnd y => simp [mergeB]
  | txt cs a => simp [mergeB]

theorem mergeF_cons_chr (c : Char) (a : Attrs) (rest : List WEvent) :
    mergeF (.chr c a :: rest) =
      .txt (c :: chrChars (rest.takeWhile (isChrA a))) a :: mergeF (rest.dropWhile (isChrA a)) := by
  simp only [mergeF]

theorem mergeB_cons_chr (c : Char) (a : Attrs) (rest : List WEvent) :
    mergeB (.chr c a :: rest) =
      .txt (c :: chrChars (rest.takeWhile (isChrA a))).reverse a ::
        mergeB (rest.dropWhile (isChrA a)) := by
  simp only [mergeB]

theorem notChr_of_isChrA_false {e : WEvent} (he : ∀ a, isChrA a e = false) :
    ∀ c a, e ≠ .chr c a := by
  intro c a hcon
  subst hcon
  exact absurd (he a) (by simp [isChrA])

/-- Appending a non-character event to a stream appends it to the merged
stream. -/
theorem mergeF_append_notChr (l : List WEvent) (e : WEvent)
    (he : ∀ a, isChrA a e = false) : mergeF (l ++ [e]) = mergeF l ++ [e] := by
  induction l using mergeF.induct with
  | case1 =>
    rw [List.nil_append, mergeF_cons_notChr e [] (notChr_of_isChrA_false he), mergeF_nil]
    rfl
  | case2 c a rest ih =>
    have hsplit := tdw_append (isChrA a) rest [e] (by
      intro x hx
      injection hx with hx
      rw [← hx]
      exact he a)
    rw [List.cons_append, mergeF_cons_chr, mergeF_cons_chr, hsplit.1, hsplit.2, ih]
    rfl
  | case3 x rest hx ih =>
    have hx' : ∀ c a, x ≠ .chr c a := fun c a hcon => hx c a hcon
    rw [List.cons_append, mergeF_cons_notChr x _ hx', mergeF_cons_notChr x _ hx', ih]
    rfl

/-- Appending a nonempty run of `a`-attributed character events to a stream
not ending in an `a`-character appends one merged `TEXT` event. -/
theorem mergeF_append_run (m : List WEvent) :
    ∀ (run : List WEvent) (a : Attrs), run ≠ [] →
      (∀ x ∈ run, isChrA a x = true) →
      (∀ x, m.getLast? = some x → isChrA a x = false) →
      mergeF (m ++ run) = mergeF m ++ [.txt (chrChars run) a] := by
  induction m using mergeF.induct with
  | case1 =>
    intro run a hne hall hlast
    cases run with
    | nil => exact absurd rfl hne
    | cons r0 rrest =>
      obtain ⟨c, rfl⟩ := isChrA_inv (hall r0 (by simp))
      have hrest := tdw_all (isChrA a) rrest fun x hx => hall x (by simp [hx])
      rw [List.nil_append, mergeF_cons_chr, hrest.1, hrest.2, mergeF_nil]
      simp [chrChars]
  | case2 c b m' ih =>
    intro run a hne hall hlast
    have hsplit : (m' ++ run).takeWhile (isChrA b) = m'.takeWhile (isChrA b) ∧
        (m' ++ run).dropWhile (isChrA b) = m'.dropWhile (isChrA b) ++ run := by
      by_cases hba : b = a
      · subst hba
        have hm' : m' ≠ [] := by
          intro hcon
          subst hcon
          exact absurd (hlast (.chr c b) rfl) (by simp [isChrA])
        obtain ⟨xl, hxl⟩ : ∃ xl, m'.getLast? = some xl := by
          cases hg : m'.getLast? with
          | none => rw [List.getLast?_eq_none_iff] at hg; exact absurd hg hm'
          | some xl => exact ⟨xl, rfl⟩
        have hxlast : (WEvent.chr c b :: m').getLast? = some xl := by
          cases m' with
          | nil => exact absurd rfl hm'
          | cons z m'' => rw [List.getLast?_cons_cons]; exact hxl
        exact tdw_append_fail (isChrA b) m' run
          ⟨xl, List.mem_of_mem_getLast? hxl, hlast xl hxlast⟩
      · refine tdw_append (isChrA b) m' run ?_
        intro x hx
        cases run with
        | nil => cases hx
        | cons r0 rrest =>
          injection hx with hx
          obtain ⟨c0, hc0⟩ := isChrA_inv (hall r0 (by simp))
          rw [← hx, hc0]
          simp only [isChrA, decide_eq_false_iff_not]
          exact fun hcon => hba hcon.symm
    have hihlast : ∀ x, (m'.dropWhile (isChrA b)).getLast? = some x → isChrA a x = false := by
      intro x hx
      by_cases hdw : m'.dropWhile (isChrA b) = []
      · rw [hdw] at hx; cases hx
      · rw [getLast?_dropWhile _ _ hdw] at hx
        refine hlast x ?_
        cases m' with
        | nil => simp at hdw
        | cons z m'' => rw [List.getLast?_cons_cons]; exact hx
    rw [List.cons_append, mergeF_cons_chr, mergeF_cons_chr, hsplit.1, hsplit.2,
      ih run a hne hall hihlast]
    rfl
  | case3 x m' hx ih =>
    intro run a hne hall hlast
    have hx' : ∀ c a, x ≠ .chr c a := fun c a hcon => hx c a hcon
    have hlast' : ∀ y, m'.getLast? = some y → isChrA a y = false := by
      intro y hy
      refine hlast y ?_
      cases m' with
      | nil => cases hy
      | cons z m'' => rw [List.getLast?_cons_cons]; exact hy
    rw [List.cons_append, mergeF_cons_notChr x _ hx', mergeF_cons_notChr x _ hx',
      ih run a hne hall hlast']
    rfl

/-- Merging a backward stream produces exactly the reverse of merging the
forward stream. -/
theorem mergeB_reverse (l : List WEvent) : mergeB l.reverse = (mergeF l).reverse := by
  suffices h : ∀ (n : Nat) (l : List WEvent), l.length ≤ n → mergeB l.reverse = (mergeF l).reverse
    from h l.length l (le_refl _)
  intro n
  induction n with
  | zero =>
    intro l hl
    rw [List.length_eq_zero.mp (Nat.le_zero.mp hl), List.reverse_nil, mergeB_nil,
      mergeF_nil, List.reverse_nil]
  | succ n ihn =>
    intro l hl
    cases hrev : l.reverse with
    | nil =>
      rw [List.reverse_eq_nil_iff.mp hrev, mergeB_nil, mergeF_nil]
      rfl
    | cons x xs =>
      have hl' : l = xs.reverse ++ [x] := by
        rw [← List.reverse_reverse l, hrev]
        simp
      have hlen : xs.length ≤ n := by
        have : l.length = xs.length + 1 := by
          rw [hl']
          simp
        omega
      cases hx : x with
      | chr c a =>
        subst hx
        set rr := xs.takeWhile (isChrA a) with hrr
        set mr := xs.dropWhile (isChrA a) with hmr
        have hxs : xs = rr ++ mr := (List.takeWhile_append_dropWhile _ _).symm
        have hrun : l = mr.reverse ++ (rr.reverse ++ [WEvent.chr c a]) := by
          rw [hl']
          conv_lhs => rw [hxs]
          simp
        have hrunall : ∀ y ∈ rr.reverse ++ [WEvent.chr c a], isChrA a y = true := by
          intro y hy
          rcases List.mem_append.mp hy with hy | hy
          · exact List.mem_takeWhile_imp (List.mem_reverse.mp hy)
          · have : y = WEvent.chr c a := by simpa using hy
            subst this
            simp [isChrA]
        have hmlast : ∀ y, mr.reverse.getLast? = some y → isChrA a y = false := by
          intro y hy
          rw [List.getLast?_reverse] at hy
          cases hmr' : mr with
          | nil => rw [hmr'] at hy; cases hy
          | cons z zs =>
            rw [hmr'] at hy
            injection hy with hy
            subst hy
            exact dropWhile_head_false (isChrA a) xs (by rw [← hmr, hmr'])
        have hmf : mergeF l = mergeF mr.reverse ++
            [.txt (chrChars (rr.reverse ++ [WEvent.chr c a])) a] := by
          rw [hrun]
          exact mergeF_append_run mr.reverse (rr.reverse ++ [WEvent.chr c a]) a
            (by simp) hrunall hmlast
        have hchars : chrChars (rr.reverse ++ [WEvent.chr c a]) =
            (chrChars rr).reverse ++ [c] := by
          rw [chrChars_append, chrChars_reverse]
          rfl
        rw [hrev] at *
        rw [mergeB_cons_chr, hmf]
        have hmrlen : mr.reverse.length ≤ n := by
          have h1 : mr.length ≤ xs.length := by
            conv_rhs => rw [hxs]
            simp
          simp only [List.length_reverse]
          omega
        have hmb : mergeB mr = (mergeF mr.reverse).reverse := by
          have := ihn mr.reverse hmrlen
          rwa [List.reverse_reverse] at this
        rw [← hrr, ← hmr, hmb, hchars]
        simp
      | elemStart y =>
        subst hx
        have hstep : mergeB (WEvent.elemStart y :: xs) = WEvent.elemStart y :: mergeB xs :=
          mergeB_cons_notChr _ _ (by intro c a hcon; cases hcon)
        rw [hrev] at *
        rw [hstep, hl', mergeF_append_notChr xs.reverse _ (by intro a; simp [isChrA])]
        have hmb : mergeB xs = (mergeF xs.reverse).reverse := by
          have := ihn xs.reverse (by simpa using hlen)
          rwa [List.reverse_reverse] at this
        rw [hmb]
        simp
      | elemEnd y =>
        subst hx
        have hstep : mergeB (WEvent.elemEnd y :: xs) = WEvent.elemEnd y :: mergeB xs :=
          mergeB_cons_notChr _ _ (by intro c a hcon; cases hcon)
        rw [hrev] at *
        rw [hstep, hl', mergeF_append_notChr xs.reverse _ (by intro a; simp [isChrA])]
        have hmb : mergeB xs = (mergeF xs.reverse).reverse := by
          have := ihn xs.reverse (by simpa using hlen)
          rwa [List.reverse_reverse] at this
        rw [hmb]
        simp
      | txt cs a =>
        subst hx
        have hstep : mergeB (WEvent.txt cs a :: xs) = WEvent.txt cs a :: mergeB xs :=
          mergeB_cons_notChr _ _ (by intro c a' hcon; cases hcon)
        rw [hrev] at *
        rw [hstep, hl', mergeF_append_notChr xs.reverse _ (by intro a'; simp [isChrA])]
        have hmb : mergeB xs = (mergeF xs.reverse).reverse := by
          have := ihn xs.reverse (by simpa using hlen)
          rwa [List.reverse_reverse] at this
        rw [hmb]
        simp

/-- Post-processing a backward stream yields the reverse of post-processing
the forward stream. -/
theorem postB_reverse (fl : WFlags) (l : List WEvent) :
    postB fl l.reverse = (postF fl l).reverse := by
  unfold postF postB
  cases fl.singleCharacters <;> cases fl.ignoreElementEnd <;>
    simp [mergeB_reverse, List.filter_reverse]

/-- C4: for every tree, every pair of position bounds and every combination
of the `singleCharacters`, `shallow` and `ignoreElementEnd` flags (and every
depth budget), the event sequence of the backward TreeWalker traversal is
exactly the reverse of the forward traversal's event sequence over the same
bounds. -/
theorem C4_treewalker_backward_reverse (f : Nat) (fl : WFlags) (cs : List Node)
    (a b : List Nat) :
    treeWalkBackward f fl cs a b = (treeWalkForward f fl cs a b).map List.reverse := by
  unfold treeWalkForward treeWalkBackward
  rw [browB_eq_reverse]
  cases browF f fl.shallow cs a b with
  | none => rfl
  | some l =>
    show some (postB fl l.reverse) = some ((postF fl l).reverse)
    rw [postB_reverse]

end CKE
